import Mathlib

/-!
# Verification of the Vertex AI Express client (`src/api/providers/vertex.ts`)

This file gives a shallow embedding of the core of the Vertex AI Express
client: the incremental JSON stream decoder, the response-to-event emitter
(thinking tags, two-phase tool calls, usage), the tool-schema sanitizer
`cleanSchema`, and the request-side tool-id correlation, together with
theorems settling the specification claims about them.

Conventions:
* JavaScript strings are modelled as `String` / `List Char`.
* JavaScript objects that the code inspects by key are modelled as Lean
  structures with `Option` fields (absent key = `none`); generic JSON values
  are modelled by the `JsonVal` inductive, with objects as ordered
  association lists (JS `for ... in` iterates string keys in insertion
  order, and `out[key] = v` overwrites in place, which `setKey` mirrors).
* JS truthiness is modelled where the code relies on it (`JsonVal.isTruthy`,
  and `Option String` text fields where `""` is falsy).
-/

set_option autoImplicit false

namespace VertexExpress

/-- Generic JSON value, as produced by `JSON.parse`: objects are ordered
key/value association lists (insertion order), arrays are lists. -/
inductive JsonVal where
  | null
  | bool (b : Bool)
  | num (n : Int)
  | str (s : String)
  | arr (items : List JsonVal)
  | obj (fields : List (String × JsonVal))
deriving Repr

/-- JS strict equality against the string literal `"null"`
(`t !== "null"` in the source is `!(isStrNull t)`). -/
def JsonVal.isStrNull : JsonVal → Bool
  | .str s => s == "null"
  | _ => false

/-- JS truthiness of a JSON value (`undefined` does not occur inside parsed
JSON): `null`, `false`, `0` and `""` are falsy, arrays and objects truthy. -/
def JsonVal.isTruthy : JsonVal → Bool
  | .null => false
  | .bool b => b
  | .num n => n != 0
  | .str s => s != ""
  | .arr _ => true
  | .obj _ => true

/-- JS object assignment `out[key] = v`: overwrite in place if the key is
present, else append (insertion order preserved). -/
def setKey : List (String × JsonVal) → String → JsonVal → List (String × JsonVal)
  | [], k, v => [(k, v)]
  | (k0, v0) :: rest, k, v =>
    if k0 = k then (k, v) :: rest else (k0, v0) :: setKey rest k v

/-- The fixed keyword set dropped by `cleanSchema` (vertex.ts lines 291-306). -/
def bannedKeys : List String :=
  ["exclusiveMinimum", "exclusiveMaximum", "minimum", "maximum", "multipleOf",
   "minLength", "maxLength", "pattern", "additionalProperties", "title",
   "default", "examples", "$schema", "$id"]

/-- The `key === "type" && Array.isArray(schema[key])` branch of `cleanSchema`
(vertex.ts lines 310-319): `out[key] = firstType || schema[key][0]`, where
`firstType` is the first entry `!== "null"`; a `firstType` that is falsy
(JS `||`) falls back to the array's first element.  When the array is empty
JS stores `undefined`, which a JSON serialization drops; we model that by
leaving the key absent.  Then `nullable: true` is added when `"null"` is
among the entries. -/
def typeFold (out : List (String × JsonVal)) (entries : List JsonVal) :
    List (String × JsonVal) :=
  let firstType? := entries.find? (fun t => !(JsonVal.isStrNull t))
  let out1 :=
    match firstType? with
    | some t =>
      if t.isTruthy then setKey out "type" t
      else
        match entries.head? with
        | some h0 => setKey out "type" h0
        | none => out
    | none =>
      match entries.head? with
      | some h0 => setKey out "type" h0
      | none => out
  if entries.any JsonVal.isStrNull then
    setKey out1 "nullable" (JsonVal.bool true)
  else out1

mutual

/-- `cleanSchema` (vertex.ts lines 282-324): primitives returned unchanged
(`!schema || typeof schema !== "object"`), arrays mapped elementwise, objects
rebuilt key by key skipping `bannedKeys`, collapsing `type` arrays, and
recursing into every other value. -/
def cleanSchema : JsonVal → JsonVal
  | .null => .null
  | .bool b => .bool b
  | .num n => .num n
  | .str s => .str s
  | .arr items => .arr (cleanList items)
  | .obj fields => .obj (cleanFields [] fields)

/-- `schema.map((item) => this.cleanSchema(item))`. -/
def cleanList : List JsonVal → List JsonVal
  | [] => []
  | v :: rest => cleanSchema v :: cleanList rest

/-- The `for (const key in schema)` loop of `cleanSchema`, with `out` the
object built so far. -/
def cleanFields (out : List (String × JsonVal)) :
    List (String × JsonVal) → List (String × JsonVal)
  | [] => out
  | (k, v) :: rest =>
    if k ∈ bannedKeys then cleanFields out rest
    else if k = "type" then
      match v with
      | .arr entries => cleanFields (typeFold out entries) rest
      | _ => cleanFields (setKey out k (cleanSchema v)) rest
    else cleanFields (setKey out k (cleanSchema v)) rest

end

/-- First-occurrence key lookup in an ordered association object (JS property
access `o[k]` on objects built with `setKey`, whose keys are unique). -/
def lookupKey (k : String) : List (String × JsonVal) → Option JsonVal
  | [] => none
  | (k0, v) :: rest => if k0 = k then some v else lookupKey k rest

/-- A primitive JSON value (not an array, not an object). -/
def JsonVal.isPrim : JsonVal → Bool
  | .arr _ => false
  | .obj _ => false
  | _ => true

/-- An array JSON value. -/
def JsonVal.isArr : JsonVal → Bool
  | .arr _ => true
  | _ => false

/-- `true` when the keys of the association list are pairwise distinct, as
they are for any object produced by `JSON.parse` or built with `setKey`. -/
def noDupKeys : List (String × JsonVal) → Bool
  | [] => true
  | (k, _) :: rest => decide (k ∉ rest.map Prod.fst) && noDupKeys rest

/-- For a `type` key holding an array: all entries primitive.  (`true` on
non-arrays; used only under the `isArr` guard.) -/
def typeEntriesPrim : JsonVal → Bool
  | .arr entries => entries.all JsonVal.isPrim
  | _ => true

mutual

/-- Every array stored under a `type` key, anywhere in the value, has only
primitive entries.  On this class `cleanSchema` is idempotent (collapsing a
`type` array installs its first non-`"null"` entry uncleaned, so a nested
array or object there survives one pass but changes on the next). -/
def goodTypes : JsonVal → Bool
  | .arr items => goodTypesList items
  | .obj fields => goodTypesFields fields
  | _ => true

/-- `goodTypes` on every element. -/
def goodTypesList : List JsonVal → Bool
  | [] => true
  | v :: rest => goodTypes v && goodTypesList rest

/-- `goodTypes` on every field value, where a `type` key holding an array is
required to hold only primitive entries. -/
def goodTypesFields : List (String × JsonVal) → Bool
  | [] => true
  | (k, v) :: rest =>
    (if k = "type" && JsonVal.isArr v then typeEntriesPrim v else goodTypes v) &&
      goodTypesFields rest

end

mutual

/-- Fixed points of `cleanSchema`: no banned keys, no `type` key holding an
array, unique keys, recursively. -/
def isClean : JsonVal → Bool
  | .arr items => isCleanList items
  | .obj fields => noDupKeys fields && isCleanFields fields
  | _ => true

/-- `isClean` on every element. -/
def isCleanList : List JsonVal → Bool
  | [] => true
  | v :: rest => isClean v && isCleanList rest

/-- `isClean` on every field: key not banned, a `type` key does not hold an
array, and the value is clean. -/
def isCleanFields : List (String × JsonVal) → Bool
  | [] => true
  | (k, v) :: rest =>
    decide (k ∉ bannedKeys) && (if k = "type" then !(JsonVal.isArr v) else true) &&
      isClean v && isCleanFields rest

end

/-! ### Stream decoder (`createMessageExpress`, vertex.ts lines 120-247)

The decoder state corresponds field by field to the local variables of the
read loop: `buffer`, `inString`, `escaped`, `depth`, `startIndex` (−1 when no
object is in progress) and `cursor`.  Spans are `List Char` substrings of the
buffer (the `jsonStr` handed to `JSON.parse`). -/

/-- The decoder's mutable scan state. -/
structure DecState where
  buffer : List Char
  inString : Bool
  escaped : Bool
  depth : Int
  startIndex : Int
  cursor : Nat
deriving Repr

/-- State at the start of a session (vertex.ts lines 122-130). -/
def initState : DecState := ⟨[], false, false, 0, -1, 0⟩

/-- One iteration of the `while (cursor < buffer.length)` loop, processing the
character `c = buffer[cursor]` (vertex.ts lines 141-242).  Returns the new
state and the completed candidate span, if this character closed one.  On
emission the code sets `buffer = buffer.substring(cursor + 1)`,
`cursor = -1` (incremented to `0` at the loop footer) and `startIndex = -1`;
the `cursor++` footer is folded into each branch here. -/
def scanStep (s : DecState) (c : Char) : DecState × Option (List Char) :=
  if s.inString then
    if c = '\\' then
      ({ s with escaped := !s.escaped, cursor := s.cursor + 1 }, none)
    else if c = '"' ∧ s.escaped = false then
      ({ s with inString := false, cursor := s.cursor + 1 }, none)
    else
      ({ s with escaped := false, cursor := s.cursor + 1 }, none)
  else
    if c = '"' then
      ({ s with inString := true, cursor := s.cursor + 1 }, none)
    else if c = '{' then
      ({ s with depth := s.depth + 1,
                startIndex := if s.depth = 0 then (s.cursor : Int) else s.startIndex,
                cursor := s.cursor + 1 }, none)
    else if c = '}' then
      if s.depth - 1 = 0 ∧ s.startIndex ≠ -1 then
        let jsonStr := (s.buffer.take (s.cursor + 1)).drop s.startIndex.toNat
        ({ buffer := s.buffer.drop (s.cursor + 1), inString := s.inString,
           escaped := s.escaped, depth := s.depth - 1, startIndex := -1,
           cursor := 0 }, some jsonStr)
      else
        ({ s with depth := s.depth - 1, cursor := s.cursor + 1 }, none)
    else
      ({ s with cursor := s.cursor + 1 }, none)

/-- The scan loop, driven by explicit fuel.  Each `scanStep` decreases
`buffer.length - cursor` by exactly one (`scanStep_measure` below), so with
fuel `buffer.length - cursor` this runs the `while (cursor < buffer.length)`
loop to completion; the fuel is only a termination device. -/
def scanLoopF : Nat → DecState → DecState × List (List Char)
  | 0, s => (s, [])
  | fuel + 1, s =>
    if h : s.cursor < s.buffer.length then
      let p := scanStep s (s.buffer.get ⟨s.cursor, h⟩)
      let r := scanLoopF fuel p.1
      (r.1, p.2.toList ++ r.2)
    else (s, [])

/-- Run the scan loop to completion from state `s`. -/
def scanLoop (s : DecState) : DecState × List (List Char) :=
  scanLoopF (s.buffer.length - s.cursor) s

/-- Receive one chunk: `buffer += chunkStr` followed by the scan loop
(vertex.ts lines 137-243). -/
def feed (s : DecState) (chunk : List Char) : DecState × List (List Char) :=
  scanLoop { s with buffer := s.buffer ++ chunk }

/-- Receive a whole stream of chunks (the `while (true) { read(); ... }`
loop), collecting all emitted spans in order. -/
def feedMany (s : DecState) : List (List Char) → DecState × List (List Char)
  | [] => (s, [])
  | c :: rest =>
    let p := feed s c
    let r := feedMany p.1 rest
    (r.1, p.2 ++ r.2)

/-- Body of a JSON string literal (between the quotes): any character other
than a bare `"` or a bare `\`, or a backslash escape pair.  Every valid JSON
string body has this shape. -/
inductive StrBody : List Char → Prop
  | nil : StrBody []
  | raw {c : Char} {r : List Char} : c ≠ '"' → c ≠ '\\' → StrBody r → StrBody (c :: r)
  | esc {c : Char} {r : List Char} : StrBody r → StrBody ('\\' :: c :: r)

/-- Interior of a balanced region as the scanner sees it: ordinary characters
(everything except `"`, `{`, `}`, including whitespace, brackets, commas and
digits), complete string literals, and complete nested `{...}` groups.  The
interior of every syntactically valid JSON object is `Balanced`. -/
inductive Balanced : List Char → Prop
  | nil : Balanced []
  | plain {c : Char} {r : List Char} :
      c ≠ '"' → c ≠ '{' → c ≠ '}' → Balanced r → Balanced (c :: r)
  | str {b r : List Char} : StrBody b → Balanced r → Balanced ('"' :: b ++ '"' :: r)
  | obj {i r : List Char} : Balanced i → Balanced r → Balanced ('{' :: i ++ '}' :: r)

/-- The text of one syntactically valid, self-delimited JSON object:
`{` interior `}` with a balanced interior. -/
def ObjText (o : List Char) : Prop := ∃ i, Balanced i ∧ o = '{' :: i ++ ['}']

/-! ### Response translator / event emitter (vertex.ts lines 163-233) -/

/-- The typed output events the generator yields. -/
inductive Event where
  | reasoning (text : String)
  | text (text : String)
  | toolCallPartial (index : Nat) (id : String) (name : Option String)
      (arguments : Option String)
  | usage (inputTokens outputTokens totalCost : Int)
  | grounding (sources : List (String × String))
deriving DecidableEq, Repr

/-- A `functionCall` payload of a response part. -/
structure FunctionCall where
  name : String
  args : JsonVal
deriving Repr

/-- One element of `candidates[0].content.parts`.  Absent keys are `none`;
`thought` models the truthiness of `part.thought`. -/
structure RPart where
  thought : Bool
  text : Option String
  functionCall : Option FunctionCall
deriving Repr

/-- `candidate.content`. -/
structure RContent where
  parts : Option (List RPart)
deriving Repr

/-- `groundingChunks[i].web` (wire shape; the decoder never reads it). -/
structure GroundingWeb where
  uri : Option String
  title : Option String
deriving Repr

/-- One grounding chunk (wire shape; the decoder never reads it). -/
structure GroundingChunk where
  web : Option GroundingWeb
deriving Repr

/-- `candidate.groundingMetadata` (wire shape; the decoder never reads it). -/
structure GroundingMetadata where
  groundingChunks : Option (List GroundingChunk)
deriving Repr

/-- One element of `chunk.candidates`. -/
structure RCandidate where
  content : Option RContent
  groundingMetadata : Option GroundingMetadata
deriving Repr

/-- `usageMetadata` / `usage_metadata` under either key-casing convention. -/
structure RUsage where
  promptTokenCount : Option Int
  prompt_token_count : Option Int
  candidatesTokenCount : Option Int
  candidates_token_count : Option Int
deriving Repr

/-- One decoded response object, with the keys `createMessageExpress` reads
(plus `responseId`, present on the wire but unread). -/
structure RespObj where
  candidates : Option (List RCandidate)
  usageMetadata : Option RUsage
  usage_metadata : Option RUsage
  responseId : Option String
deriving Repr

/-- External collaborators used by the emitter: `this.calculateCost` (defined
in the Gemini handler, outside these sources) and the platform
`JSON.stringify`. -/
structure Collab where
  calculateCost : Int → Int → Int
  stringify : JsonVal → String

/-- Session-scoped emitter state: the `inThought` flag and the
`toolCallCounter` (vertex.ts lines 125, 131). -/
structure EmitState where
  inThought : Bool
  toolCallCounter : Nat
deriving Repr, DecidableEq

/-- JS truthiness of an optional string field (`""` is falsy). -/
def strTruthy : Option String → Bool
  | some t => t != ""
  | none => false

/-! #### The think-tag splitter

`part.text.split(/(<think(?:\s.*?)?>|<\/think(?:\s.*?)?>)/gi)` — matches of
the capturing separator are returned between the split pieces.  A match is an
(ASCII-case-insensitive) literal `<think` or `</think` followed either
directly by `>`, or by one JS whitespace character, a shortest run of
non-line-terminator characters, and `>`. -/

/-- The JS regex `\s` class. -/
def jsWhitespace (c : Char) : Bool :=
  c = ' ' || c = '\t' || c = '\n' || c.val = 11 || c.val = 12 || c = '\r' ||
  c.val = 0xA0 || c.val = 0x1680 || (0x2000 ≤ c.val && c.val ≤ 0x200A) ||
  c.val = 0x2028 || c.val = 0x2029 || c.val = 0x202F || c.val = 0x205F ||
  c.val = 0x3000 || c.val = 0xFEFF

/-- What the JS regex `.` matches (everything but line terminators). -/
def dotOk (c : Char) : Bool :=
  !(c = '\n' || c = '\r' || c.val = 0x2028 || c.val = 0x2029)

/-- Case-insensitive literal match of a lowercase ASCII pattern against a
prefix of the input (the `/i` flag's ASCII canonicalization). -/
def matchesCI : List Char → List Char → Bool
  | [], _ => true
  | _ :: _, [] => false
  | p :: ps, c :: cs => (c.toLower = p) && matchesCI ps cs

/-- Index of the first `>` in the list, provided every character before it is
matched by `.` (the lazy `.*?>` tail); `none` when a line terminator
intervenes or no `>` exists. -/
def findGt : List Char → Option Nat
  | [] => none
  | c :: rest =>
    if c = '>' then some 0
    else if dotOk c then (findGt rest).map (· + 1)
    else none

/-- Length matched by `(?:\s.*?)?>` at the head of the list: a direct `>`,
or one whitespace, `k` dot-characters and `>`. -/
def tagTail : List Char → Option Nat
  | [] => none
  | c :: rest =>
    if c = '>' then some 1
    else if jsWhitespace c then
      match findGt rest with
      | some k => some (k + 2)
      | none => none
    else none

/-- Length of a separator-regex match starting exactly here
(`<think(?:\s.*?)?>` tried first, then `<\/think(?:\s.*?)?>`; the two
alternatives never both match at one position). -/
def matchTagLen (l : List Char) : Option Nat :=
  if matchesCI ['<', 't', 'h', 'i', 'n', 'k'] l then
    match tagTail (l.drop 6) with
    | some k => some (6 + k)
    | none => none
  else if matchesCI ['<', '/', 't', 'h', 'i', 'n', 'k'] l then
    match tagTail (l.drop 7) with
    | some k => some (7 + k)
    | none => none
  else none

/-- Split driver: walk the text left to right, starting a new piece after
each separator match, keeping the matched separators in the output (the
regex's capture group).  `acc` is the current piece, reversed.  A match
consumes at least 7 characters, so fuel `l.length` always suffices and the
fuel-exhaustion fallback is unreachable; the fuel only certifies
termination. -/
def thinkSplitAux : Nat → List Char → List Char → List String
  | _, acc, [] => [String.mk acc.reverse]
  | 0, acc, l => [String.mk (acc.reverse ++ l)]
  | fuel + 1, acc, c :: rest =>
    match matchTagLen (c :: rest) with
    | some n =>
      String.mk acc.reverse :: String.mk ((c :: rest).take n) ::
        thinkSplitAux fuel [] ((c :: rest).drop n)
    | none => thinkSplitAux fuel (c :: acc) rest

/-- `text.split(/(<think(?:\s.*?)?>|<\/think(?:\s.*?)?>)/gi)`. -/
def thinkSplit (t : String) : List String :=
  thinkSplitAux t.toList.length [] t.toList

/-- `p.toLowerCase().startsWith(pat)` for a lowercase ASCII pattern
(`matchesCI` folds ASCII case per character, as both the regex `/i` flag and
`toLowerCase` do on the tag characters). -/
def lowerStartsWith (pat : List Char) (p : String) : Bool :=
  matchesCI pat p.toList

/-- The `for (const p of parts)` loop over split pieces (vertex.ts lines
180-189): pieces whose lowercase form starts with `<think` set the session
`inThought` flag, `</think` clears it, and any other non-empty piece is
yielded as `reasoning` or `text` according to the current flag. -/
def emitTextSegs : Bool → List String → Bool × List Event
  | flag, [] => (flag, [])
  | flag, p :: rest =>
    if lowerStartsWith ['<', 't', 'h', 'i', 'n', 'k'] p then emitTextSegs true rest
    else if lowerStartsWith ['<', '/', 't', 'h', 'i', 'n', 'k'] p then
      emitTextSegs false rest
    else if p.length > 0 then
      let r := emitTextSegs flag rest
      (r.1, (if flag then Event.reasoning p else Event.text p) :: r.2)
    else emitTextSegs flag rest

/-- The `for (const part of candidate.content.parts)` loop (vertex.ts lines
167-212): thought parts yield `reasoning` directly; truthy text is split on
think tags; otherwise a `functionCall` yields the two-phase
`tool_call_partial` pair and bumps the counter. -/
def handleParts (cb : Collab) : EmitState → List RPart → EmitState × List Event
  | st, [] => (st, [])
  | st, part :: rest =>
    if part.thought then
      let evs := match part.text with
        | some t => if t != "" then [Event.reasoning t] else []
        | none => []
      let r := handleParts cb st rest
      (r.1, evs ++ r.2)
    else if strTruthy part.text then
      let t := (part.text).getD ""
      let p := emitTextSegs st.inThought (thinkSplit t)
      let r := handleParts cb { st with inThought := p.1 } rest
      (r.1, p.2 ++ r.2)
    else
      match part.functionCall with
      | some fc =>
        let callId := fc.name ++ "-" ++ toString st.toolCallCounter
        let evs := [Event.toolCallPartial st.toolCallCounter callId (some fc.name) none,
                    Event.toolCallPartial st.toolCallCounter callId none
                      (some (cb.stringify fc.args))]
        let r := handleParts cb { st with toolCallCounter := st.toolCallCounter + 1 } rest
        (r.1, evs ++ r.2)
      | none => handleParts cb st rest

/-- Processing of one successfully parsed object (vertex.ts lines 165-230):
the parts loop over `candidates[0].content.parts` when present, then one
`usage` event when `usageMetadata || usage_metadata` is truthy. -/
def handleObj (cb : Collab) (st : EmitState) (o : RespObj) : EmitState × List Event :=
  let r :=
    match o.candidates.bind List.head? with
    | some cand =>
      match cand.content with
      | some content =>
        match content.parts with
        | some parts => handleParts cb st parts
        | none => (st, [])
      | none => (st, [])
    | none => (st, [])
  match o.usageMetadata <|> o.usage_metadata with
  | some u =>
    let inputTokens := u.promptTokenCount.getD (u.prompt_token_count.getD 0)
    let outputTokens := u.candidatesTokenCount.getD (u.candidates_token_count.getD 0)
    (r.1, r.2 ++ [Event.usage inputTokens outputTokens
      (cb.calculateCost inputTokens outputTokens)])
  | none => r

/-- Processing of a session's sequence of decoded objects, threading the
emitter state across objects. -/
def processObjs (cb : Collab) : EmitState → List RespObj → EmitState × List Event
  | st, [] => (st, [])
  | st, o :: rest =>
    let p := handleObj cb st o
    let r := processObjs cb p.1 rest
    (r.1, p.2 ++ r.2)

/-! ### The interleaved decode/emit loop and the transport boundary -/

/-- The scan loop exactly as in `createMessageExpress`: when a candidate span
completes, `JSON.parse` is attempted inside `try`; success emits the object's
events, failure reports the span to the error collaborator (`console.error`)
and emits nothing; the buffer compaction after the `try/catch` happens in
both cases (it is part of `scanStep`).  `parse` abstracts `JSON.parse`
restricted to single objects. -/
def scanLoopEF (parse : List Char → Option RespObj) (cb : Collab) :
    Nat → DecState → EmitState → DecState × EmitState × List Event × List (List Char)
  | 0, s, em => (s, em, [], [])
  | fuel + 1, s, em =>
    if h : s.cursor < s.buffer.length then
      let p := scanStep s (s.buffer.get ⟨s.cursor, h⟩)
      match p.2 with
      | none => scanLoopEF parse cb fuel p.1 em
      | some span =>
        match parse span with
        | some o =>
          let q := handleObj cb em o
          let r := scanLoopEF parse cb fuel p.1 q.1
          (r.1, r.2.1, q.2 ++ r.2.2.1, r.2.2.2)
        | none =>
          let r := scanLoopEF parse cb fuel p.1 em
          (r.1, r.2.1, r.2.2.1, span :: r.2.2.2)
    else (s, em, [], [])

/-- Receive one chunk in the interleaved loop. -/
def feedE (parse : List Char → Option RespObj) (cb : Collab) (s : DecState)
    (em : EmitState) (chunk : List Char) :
    DecState × EmitState × List Event × List (List Char) :=
  let s0 : DecState := { s with buffer := s.buffer ++ chunk }
  scanLoopEF parse cb (s0.buffer.length - s0.cursor) s0 em

/-- Receive a whole stream of chunks in the interleaved loop. -/
def feedManyE (parse : List Char → Option RespObj) (cb : Collab) :
    DecState → EmitState → List (List Char) →
    DecState × EmitState × List Event × List (List Char)
  | s, em, [] => (s, em, [], [])
  | s, em, c :: rest =>
    let p := feedE parse cb s em c
    let r := feedManyE parse cb p.1 p.2.1 rest
    (r.1, r.2.1, p.2.2.1 ++ r.2.2.1, p.2.2.2 ++ r.2.2.2)

/-- A whole streaming session after a successful response: events yielded
and parse errors reported, in order. -/
def decodeSession (parse : List Char → Option RespObj) (cb : Collab)
    (chunks : List (List Char)) : List Event × List (List Char) :=
  let r := feedManyE parse cb initState ⟨false, 0⟩ chunks
  (r.2.2.1, r.2.2.2)

/-- Reference pipeline: emit the spans' events one span at a time, after the
fact.  Claim C2 states the interleaved loop equals this composition. -/
def emitSpans (parse : List Char → Option RespObj) (cb : Collab) :
    EmitState → List (List Char) → EmitState × List Event × List (List Char)
  | em, [] => (em, [], [])
  | em, sp :: rest =>
    match parse sp with
    | some o =>
      let q := handleObj cb em o
      let r := emitSpans parse cb q.1 rest
      (r.1, q.2 ++ r.2.1, r.2.2)
    | none =>
      let r := emitSpans parse cb em rest
      (r.1, r.2.1, sp :: r.2.2)

/-- The fetch response as `createMessageExpress` inspects it: `ok`, `status`,
the body text read on error, and the optional streamed body. -/
structure HttpResponse where
  ok : Bool
  status : Nat
  bodyText : String
  body : Option (List (List Char))

/-- The errors thrown before any event is emitted (vertex.ts lines 114-118):
`Vertex Express Error (<status>): <body text>` and `No response body`. -/
inductive ExpressError where
  | httpError (status : Nat) (bodyText : String)
  | noBody
deriving DecidableEq, Repr

/-- `createMessageExpress` from the response check onward: a non-ok status
throws with the status and raw body text, an absent body throws, and only
otherwise does the streaming session run. -/
def createMessageExpressNet (parse : List Char → Option RespObj) (cb : Collab)
    (resp : HttpResponse) : Except ExpressError (List Event × List (List Char)) :=
  if resp.ok = false then .error (.httpError resp.status resp.bodyText)
  else
    match resp.body with
    | none => .error .noBody
    | some chunks => .ok (decodeSession parse cb chunks)

/-! ### Request-side translation (vertex.ts lines 55-75) -/

/-- A canonical content block of a conversation message. -/
inductive ContentBlock where
  | text (t : String)
  | toolUse (id name : String) (input : JsonVal)
  | toolResult (toolUseId : String) (content : String)
deriving Repr

/-- Message content: a bare string or a block list (`Array.isArray`). -/
inductive MsgContent where
  | str (s : String)
  | blocks (bs : List ContentBlock)
deriving Repr

/-- One canonical conversation message; `mtype` is the meta `type` field
(messages with `type === "reasoning"` are filtered out before translation). -/
structure CanonicalMessage where
  role : String
  mtype : Option String
  content : MsgContent
deriving Repr

/-- `Map.set` on a string-to-string map kept in insertion order. -/
def setKeyStr : List (String × String) → String → String → List (String × String)
  | [], k, v => [(k, v)]
  | (k0, v0) :: rest, k, v =>
    if k0 = k then (k, v) :: rest else (k0, v0) :: setKeyStr rest k v

/-- `Map.get` on the same map. -/
def lookupStr (k : String) : List (String × String) → Option String
  | [] => none
  | (k0, v) :: rest => if k0 = k then some v else lookupStr k rest

/-- The tool-id-to-name map built before translation by scanning every
`tool_use` block of every message, in conversation order (vertex.ts lines
62-71). -/
def buildToolIdMap (messages : List CanonicalMessage) : List (String × String) :=
  messages.foldl
    (fun m msg =>
      match msg.content with
      | .blocks bs =>
        bs.foldl
          (fun m b =>
            match b with
            | .toolUse id name _ => setKeyStr m id name
            | _ => m) m
      | .str _ => m) []

/-- A part of the provider's request body. -/
inductive GPart where
  | text (t : String)
  | functionCall (name : String) (args : JsonVal)
  | functionResponse (name : String) (response : List (String × JsonVal))
deriving Repr

/-- One message of the provider's request body. -/
structure ProviderContent where
  role : String
  parts : List GPart
deriving Repr

/-- Does the block carry a tool result? -/
def blockHasToolResult : ContentBlock → Bool
  | .toolResult _ _ => true
  | _ => false

/-- Modelled from the spec: the per-block content mapping of
`convertAnthropicMessageToGemini` (`src/api/transform/gemini-format.ts`, not
among the sources): `Text → Part.Text`, `ToolUse → FunctionCall{name, args}`,
`ToolResult → FunctionResponse{name: looked up in the tool-id map,
response: {content}}`, with the name never duplicated inside `response`.
Resolution of an unknown id is left unspecified by the spec; the empty name
stands for that unspecified case and is never relied on. -/
def convertBlock (toolMap : List (String × String)) : ContentBlock → GPart
  | .text t => .text t
  | .toolUse _ name input => .functionCall name input
  | .toolResult id content =>
    .functionResponse ((lookupStr id toolMap).getD "") [("content", .str content)]

/-- Modelled from the spec: the per-message role and content mapping of
`convertAnthropicMessageToGemini` (not among the sources): `assistant` →
`model`; `user` → `user`, except that a message containing at least one
`ToolResult` block is emitted with role `function`. -/
def convertMessage (toolMap : List (String × String)) (m : CanonicalMessage) :
    ProviderContent :=
  match m.content with
  | .str s =>
    { role := if m.role = "assistant" then "model" else "user"
      parts := [.text s] }
  | .blocks bs =>
    { role :=
        if m.role = "assistant" then "model"
        else if bs.any blockHasToolResult then "function" else "user"
      parts := bs.map (convertBlock toolMap) }

/-- The translation pass of `createMessageExpress` (vertex.ts lines 55-75):
the id map is built from all messages, the `type: "reasoning"` meta messages
are filtered out, and each remaining message is converted. -/
def translateMessages (messages : List CanonicalMessage) : List ProviderContent :=
  let toolMap := buildToolIdMap messages
  (messages.filter (fun m => m.mtype != some "reasoning")).map (convertMessage toolMap)

/-! ### Helper views used by the claim statements -/

/-- The function-call payload of a part, exactly when the part reaches the
`functionCall` branch of the loop (thought falsy, text falsy). -/
def fcBranch (p : RPart) : Option FunctionCall :=
  if p.thought then none
  else if strTruthy p.text then none
  else p.functionCall

/-- The function calls a parts list sends to the `functionCall` branch,
in order. -/
def fcParts (parts : List RPart) : List FunctionCall := parts.filterMap fcBranch

/-- The usage event the emitter appends for one object, when
`usageMetadata || usage_metadata` is truthy. -/
def usageEvents (cb : Collab) (o : RespObj) : List Event :=
  match o.usageMetadata <|> o.usage_metadata with
  | some u =>
    [Event.usage (u.promptTokenCount.getD (u.prompt_token_count.getD 0))
      (u.candidatesTokenCount.getD (u.candidates_token_count.getD 0))
      (cb.calculateCost (u.promptTokenCount.getD (u.prompt_token_count.getD 0))
        (u.candidatesTokenCount.getD (u.candidates_token_count.getD 0)))]
  | none => []

/-- The parts list the emitter iterates for one object (empty when absent). -/
def objParts (o : RespObj) : List RPart :=
  match o.candidates.bind List.head? with
  | some cand =>
    match cand.content with
    | some content => content.parts.getD []
    | none => []
  | none => []

/-- All function calls of a session's decoded objects, in order. -/
def sessionFcs (objs : List RespObj) : List FunctionCall :=
  fcParts (objs.map objParts).flatten

/-- Is the event a `tool_call_partial`? -/
def isToolCallEv : Event → Bool
  | .toolCallPartial _ _ _ _ => true
  | _ => false

/-- Is the event a `grounding` event? -/
def isGroundingEv : Event → Bool
  | .grounding _ => true
  | _ => false

/-- The two-phase event pair claim C4 prescribes for the `k`-th function call
of a session. -/
def toolCallPairEvents (cb : Collab) (k : Nat) (fc : FunctionCall) : List Event :=
  [Event.toolCallPartial k (fc.name ++ "-" ++ toString k) (some fc.name) none,
   Event.toolCallPartial k (fc.name ++ "-" ++ toString k) none
     (some (cb.stringify fc.args))]

/-- A split piece that opens a thinking span (lowercase form starts with
`<think`). -/
def pieceIsOpen (p : String) : Bool :=
  lowerStartsWith ['<', 't', 'h', 'i', 'n', 'k'] p

/-- A split piece that closes a thinking span (lowercase form starts with
`</think`). -/
def pieceIsClose (p : String) : Bool :=
  lowerStartsWith ['<', '/', 't', 'h', 'i', 'n', 'k'] p

/-- The thinking flag after a sequence of split pieces: open pieces set it,
close pieces clear it, other pieces leave it. -/
def flagAfter (flag : Bool) (pieces : List String) : Bool :=
  pieces.foldl
    (fun f p => if pieceIsOpen p then true else if pieceIsClose p then false else f)
    flag

/-- Declarative segmentation: every piece that is neither an opener nor a
closer and is non-empty becomes one event, `reasoning` inside a thinking
span and `text` outside. -/
def classifiedEvents (flag : Bool) : List String → List Event
  | [] => []
  | p :: rest =>
    (if pieceIsOpen p || pieceIsClose p || p = "" then []
     else [if flag then Event.reasoning p else Event.text p]) ++
      classifiedEvents (flagAfter flag [p]) rest

/-! ## Theorems -/

/-! ### Association-list lemmas -/

theorem lookupKey_setKey (out : List (String × JsonVal)) (k q : String) (v : JsonVal) :
    lookupKey q (setKey out k v) = if k = q then some v else lookupKey q out := by
  induction out with
  | nil => simp [setKey, lookupKey]
  | cons hd tl ih =>
    obtain ⟨k0, v0⟩ := hd
    by_cases h1 : k0 = k
    · subst h1
      by_cases h2 : k0 = q <;> simp [setKey, lookupKey, h2]
    · by_cases h2 : k0 = q
      · subst h2
        have : ¬ k = k0 := fun h => h1 h.symm
        simp [setKey, lookupKey, h1, this]
      · simp [setKey, lookupKey, h1, h2, ih]

theorem lookupKey_none_of_not_mem_keys (l : List (String × JsonVal)) (q : String)
    (h : q ∉ l.map Prod.fst) : lookupKey q l = none := by
  induction l with
  | nil => rfl
  | cons hd tl ih =>
    obtain ⟨k0, v0⟩ := hd
    simp only [List.map_cons, List.mem_cons] at h
    push_neg at h
    have : k0 ≠ q := fun hk => h.1 hk.symm
    simp [lookupKey, this, ih h.2]

/-- Keys written by `typeFold` are only `type` and `nullable`. -/
theorem lookupKey_typeFold (out : List (String × JsonVal)) (entries : List JsonVal)
    (q : String) (h1 : q ≠ "type") (h2 : q ≠ "nullable") :
    lookupKey q (typeFold out entries) = lookupKey q out := by
  have h1' : ¬ ("type" = q) := fun h => h1 h.symm
  have h2' : ¬ ("nullable" = q) := fun h => h2 h.symm
  simp only [typeFold]
  repeat' split
  all_goals simp [lookupKey_setKey, h1', h2']

/-- Unfolding: a banned key is skipped. -/
theorem cleanFields_cons_banned (out : List (String × JsonVal)) (k : String)
    (v : JsonVal) (rest : List (String × JsonVal)) (h : k ∈ bannedKeys) :
    cleanFields out ((k, v) :: rest) = cleanFields out rest := by
  simp [cleanFields, h]

/-- Unfolding: a `type` key holding an array is folded. -/
theorem cleanFields_cons_type_arr (out : List (String × JsonVal))
    (entries : List JsonVal) (rest : List (String × JsonVal)) :
    cleanFields out (("type", .arr entries) :: rest) =
      cleanFields (typeFold out entries) rest := by
  simp [cleanFields, bannedKeys]

/-- Unfolding: a `type` key holding a non-array recurses like any other key. -/
theorem cleanFields_cons_type_not_arr (out : List (String × JsonVal)) (v : JsonVal)
    (rest : List (String × JsonVal)) (h : v.isArr = false) :
    cleanFields out (("type", v) :: rest) =
      cleanFields (setKey out "type" (cleanSchema v)) rest := by
  cases v <;> simp_all [cleanFields, JsonVal.isArr, bannedKeys]

/-- Unfolding: a non-banned key other than `type` recurses. -/
theorem cleanFields_cons_other (out : List (String × JsonVal)) (k : String)
    (v : JsonVal) (rest : List (String × JsonVal)) (hb : k ∉ bannedKeys)
    (ht : k ≠ "type") :
    cleanFields out ((k, v) :: rest) = cleanFields (setKey out k (cleanSchema v)) rest := by
  simp [cleanFields, hb, ht]

/-- Processing further fields never changes the lookup of a key that none of
them writes (`nullable` can additionally be written by a `type` entry). -/
theorem cleanFields_lookup_preserved (rest : List (String × JsonVal))
    (out : List (String × JsonVal)) (q : String)
    (h1 : q ∉ rest.map Prod.fst)
    (h2 : q = "nullable" → "type" ∉ rest.map Prod.fst) :
    lookupKey q (cleanFields out rest) = lookupKey q out := by
  induction rest generalizing out with
  | nil => rfl
  | cons hd tl ih =>
    obtain ⟨k0, v0⟩ := hd
    simp only [List.map_cons, List.mem_cons] at h1
    push_neg at h1
    have hk0q : ¬ (k0 = q) := fun hk => h1.1 hk.symm
    have h2' : q = "nullable" → "type" ∉ tl.map Prod.fst := by
      intro hq
      have := h2 hq
      simp only [List.map_cons, List.mem_cons] at this
      push_neg at this
      exact this.2
    by_cases hb : k0 ∈ bannedKeys
    · rw [cleanFields_cons_banned _ _ _ _ hb]
      exact ih out h1.2 h2'
    · by_cases hty : k0 = "type"
      · subst hty
        have hq2 : q ≠ "nullable" := by
          intro hq
          have := h2 hq
          simp at this
        cases v0 with
        | arr entries =>
          rw [cleanFields_cons_type_arr, ih _ h1.2 h2',
            lookupKey_typeFold _ _ _ (fun h => hk0q h.symm) hq2]
        | null =>
          rw [cleanFields_cons_type_not_arr out JsonVal.null tl rfl, ih _ h1.2 h2',
            lookupKey_setKey]
          simp [hk0q]
        | bool b =>
          rw [cleanFields_cons_type_not_arr out (JsonVal.bool b) tl rfl, ih _ h1.2 h2',
            lookupKey_setKey]
          simp [hk0q]
        | num n =>
          rw [cleanFields_cons_type_not_arr out (JsonVal.num n) tl rfl, ih _ h1.2 h2',
            lookupKey_setKey]
          simp [hk0q]
        | str s =>
          rw [cleanFields_cons_type_not_arr out (JsonVal.str s) tl rfl, ih _ h1.2 h2',
            lookupKey_setKey]
          simp [hk0q]
        | obj fs =>
          rw [cleanFields_cons_type_not_arr out (JsonVal.obj fs) tl rfl, ih _ h1.2 h2',
            lookupKey_setKey]
          simp [hk0q]
      · rw [cleanFields_cons_other _ _ _ _ hb hty, ih _ h1.2 h2', lookupKey_setKey]
        simp [hk0q]

/-- A banned key never appears among the keys of the rebuilt object: it is
skipped by the loop, and the only keys ever written are the non-banned input
keys plus `type` and `nullable`, which are not banned. -/
theorem keys_setKey (out : List (String × JsonVal)) (k : String) (v : JsonVal)
    (q : String) (h1 : q ∉ out.map Prod.fst) (h2 : q ≠ k) :
    q ∉ (setKey out k v).map Prod.fst := by
  induction out with
  | nil => simpa [setKey] using h2
  | cons hd tl ih =>
    obtain ⟨k0, v0⟩ := hd
    simp only [List.map_cons, List.mem_cons] at h1
    push_neg at h1
    by_cases hk : k0 = k
    · simp only [setKey, if_pos hk, List.map_cons, List.mem_cons]
      push_neg
      exact ⟨h2, h1.2⟩
    · simp only [setKey, if_neg hk, List.map_cons, List.mem_cons]
      push_neg
      exact ⟨h1.1, ih h1.2⟩

theorem keys_typeFold (out : List (String × JsonVal)) (entries : List JsonVal)
    (q : String) (h0 : q ∉ out.map Prod.fst) (h1 : q ≠ "type") (h2 : q ≠ "nullable") :
    q ∉ (typeFold out entries).map Prod.fst := by
  simp only [typeFold]
  repeat' split
  all_goals first
    | exact h0
    | exact keys_setKey _ _ _ _ h0 h1
    | exact keys_setKey _ _ _ _ h0 h2
    | exact keys_setKey _ _ _ _ (keys_setKey _ _ _ _ h0 h1) h2

theorem cleanFields_banned_absent (fields : List (String × JsonVal))
    (out : List (String × JsonVal)) (q : String) (hq : q ∈ bannedKeys)
    (h0 : q ∉ out.map Prod.fst) :
    q ∉ (cleanFields out fields).map Prod.fst := by
  have hqt : q ≠ "type" := by rintro rfl; simp [bannedKeys] at hq
  have hqn : q ≠ "nullable" := by rintro rfl; simp [bannedKeys] at hq
  induction fields generalizing out with
  | nil => exact h0
  | cons hd tl ih =>
    obtain ⟨k0, v0⟩ := hd
    by_cases hb : k0 ∈ bannedKeys
    · rw [cleanFields_cons_banned _ _ _ _ hb]
      exact ih out h0
    · have hqk0 : q ≠ k0 := by rintro rfl; exact hb hq
      by_cases hty : k0 = "type"
      · subst hty
        cases v0 with
        | arr entries =>
          rw [cleanFields_cons_type_arr]
          exact ih _ (keys_typeFold _ _ _ h0 hqt hqn)
        | null =>
          rw [cleanFields_cons_type_not_arr out JsonVal.null tl rfl]
          exact ih _ (keys_setKey _ _ _ _ h0 hqk0)
        | bool b =>
          rw [cleanFields_cons_type_not_arr out (JsonVal.bool b) tl rfl]
          exact ih _ (keys_setKey _ _ _ _ h0 hqk0)
        | num n =>
          rw [cleanFields_cons_type_not_arr out (JsonVal.num n) tl rfl]
          exact ih _ (keys_setKey _ _ _ _ h0 hqk0)
        | str s =>
          rw [cleanFields_cons_type_not_arr out (JsonVal.str s) tl rfl]
          exact ih _ (keys_setKey _ _ _ _ h0 hqk0)
        | obj fs =>
          rw [cleanFields_cons_type_not_arr out (JsonVal.obj fs) tl rfl]
          exact ih _ (keys_setKey _ _ _ _ h0 hqk0)
      · rw [cleanFields_cons_other _ _ _ _ hb hty]
        exact ih _ (keys_setKey _ _ _ _ h0 hqk0)

/-- The rebuilt object maps a non-banned key other than `type` (and other
than `nullable`, which a later `type` entry may write) to the cleaned value
it holds, provided the key occurs exactly once. -/
theorem cleanFields_lookup_entry (pre post : List (String × JsonVal))
    (out : List (String × JsonVal)) (q : String) (pv : JsonVal)
    (hqb : q ∉ bannedKeys) (hqt : q ≠ "type") (hqn : q ≠ "nullable")
    (hpre : q ∉ pre.map Prod.fst) (hpost : q ∉ post.map Prod.fst) :
    lookupKey q (cleanFields out (pre ++ (q, pv) :: post)) =
      some (cleanSchema pv) := by
  induction pre generalizing out with
  | nil =>
    rw [List.nil_append, cleanFields_cons_other _ _ _ _ hqb hqt,
      cleanFields_lookup_preserved _ _ _ hpost (fun h => absurd h hqn),
      lookupKey_setKey]
    simp
  | cons hd tl ih =>
    obtain ⟨k0, v0⟩ := hd
    simp only [List.map_cons, List.mem_cons] at hpre
    push_neg at hpre
    by_cases hb : k0 ∈ bannedKeys
    · rw [List.cons_append, cleanFields_cons_banned _ _ _ _ hb]
      exact ih _ hpre.2
    · by_cases hty : k0 = "type"
      · subst hty
        cases v0 with
        | arr entries =>
          rw [List.cons_append, cleanFields_cons_type_arr]
          exact ih _ hpre.2
        | null =>
          rw [List.cons_append, cleanFields_cons_type_not_arr out JsonVal.null _ rfl]
          exact ih _ hpre.2
        | bool b =>
          rw [List.cons_append, cleanFields_cons_type_not_arr out (JsonVal.bool b) _ rfl]
          exact ih _ hpre.2
        | num n =>
          rw [List.cons_append, cleanFields_cons_type_not_arr out (JsonVal.num n) _ rfl]
          exact ih _ hpre.2
        | str s =>
          rw [List.cons_append, cleanFields_cons_type_not_arr out (JsonVal.str s) _ rfl]
          exact ih _ hpre.2
        | obj fs =>
          rw [List.cons_append, cleanFields_cons_type_not_arr out (JsonVal.obj fs) _ rfl]
          exact ih _ hpre.2
      · rw [List.cons_append, cleanFields_cons_other _ _ _ _ hb hty]
        exact ih _ hpre.2

/-- Walking the fields up to a unique `type` entry holding an array with a
truthy first non-`"null"` element: the rebuilt object maps `type` to that
element and `nullable` to `true` exactly when `"null"` is among the
entries. -/
theorem cleanFields_type_entry (pre : List (String × JsonVal)) :
    ∀ (out post : List (String × JsonVal)) (entries : List JsonVal) (t : JsonVal),
    "type" ∉ pre.map Prod.fst → "type" ∉ post.map Prod.fst →
    "nullable" ∉ pre.map Prod.fst → "nullable" ∉ post.map Prod.fst →
    lookupKey "nullable" out = none →
    entries.find? (fun x => !(JsonVal.isStrNull x)) = some t →
    t.isTruthy = true →
    lookupKey "type" (cleanFields out (pre ++ ("type", .arr entries) :: post)) = some t ∧
    lookupKey "nullable" (cleanFields out (pre ++ ("type", .arr entries) :: post)) =
      (if entries.any JsonVal.isStrNull then some (.bool true) else none) := by
  induction pre with
  | nil =>
    intro out post entries t _ hpost _ hnpost hnout hfind ht
    have htypefold : typeFold out entries =
        if entries.any JsonVal.isStrNull then
          setKey (setKey out "type" t) "nullable" (JsonVal.bool true)
        else setKey out "type" t := by
      simp [typeFold, hfind, ht]
    rw [List.nil_append, cleanFields_cons_type_arr]
    constructor
    · rw [cleanFields_lookup_preserved _ _ _ hpost (by intro h; simp at h), htypefold]
      by_cases hany : entries.any JsonVal.isStrNull = true <;>
        simp [hany, lookupKey_setKey]
    · rw [cleanFields_lookup_preserved _ _ _ hnpost (fun _ => hpost), htypefold]
      by_cases hany : entries.any JsonVal.isStrNull = true <;>
        simp [hany, lookupKey_setKey, hnout]
  | cons hd tl ih =>
    intro out post entries t hpre hpost hnpre hnpost hnout hfind ht
    obtain ⟨k0, v0⟩ := hd
    simp only [List.map_cons, List.mem_cons] at hpre hnpre
    push_neg at hpre hnpre
    have hk0t : k0 ≠ "type" := fun h => hpre.1 h.symm
    have hk0n : k0 ≠ "nullable" := fun h => hnpre.1 h.symm
    rw [List.cons_append]
    by_cases hb : k0 ∈ bannedKeys
    · rw [cleanFields_cons_banned _ _ _ _ hb]
      exact ih out post entries t hpre.2 hpost hnpre.2 hnpost hnout hfind ht
    · rw [cleanFields_cons_other _ _ _ _ hb hk0t]
      refine ih _ post entries t hpre.2 hpost hnpre.2 hnpost ?_ hfind ht
      rw [lookupKey_setKey]
      simp [hk0n, hnout]

/-- C6: a `type` field holding an array of alternatives is collapsed to its
first non-`"null"` entry, with `nullable: true` added alongside exactly when
`"null"` is among the alternatives; in particular
`{type: ["string", "null"]}` becomes `{type: "string", nullable: true}` and
`{type: ["integer", "string"]}` becomes `{type: "integer"}`.

The hypotheses require the node's single `type` key to hold the array, the
first non-`"null"` alternative to exist and be truthy (every real type name,
a nonempty string, is), and the node not to carry a pre-existing `nullable`
key. -/
theorem type_array_folding (pre post : List (String × JsonVal))
    (entries : List JsonVal) (t : JsonVal)
    (hpre : "type" ∉ pre.map Prod.fst) (hpost : "type" ∉ post.map Prod.fst)
    (hnpre : "nullable" ∉ pre.map Prod.fst) (hnpost : "nullable" ∉ post.map Prod.fst)
    (hfind : entries.find? (fun x => !(JsonVal.isStrNull x)) = some t)
    (ht : t.isTruthy = true) :
    (∃ out, cleanSchema (.obj (pre ++ ("type", .arr entries) :: post)) = .obj out ∧
      lookupKey "type" out = some t ∧
      lookupKey "nullable" out =
        (if entries.any JsonVal.isStrNull then some (.bool true) else none)) ∧
    cleanSchema (.obj [("type", .arr [.str "string", .str "null"])]) =
      .obj [("type", .str "string"), ("nullable", .bool true)] ∧
    cleanSchema (.obj [("type", .arr [.str "integer", .str "string"])]) =
      .obj [("type", .str "integer")] := by
  refine ⟨⟨cleanFields [] (pre ++ ("type", .arr entries) :: post), rfl, ?_⟩, rfl, rfl⟩
  exact cleanFields_type_entry pre [] post entries t hpre hpost hnpre hnpost rfl hfind ht

/-- Witness for C6 at `{description: "d", type: ["string", "null"]}`. -/
theorem type_array_folding_witness :
    ∃ out,
      cleanSchema (.obj [("description", .str "d"),
        ("type", .arr [.str "string", .str "null"])]) = .obj out ∧
      lookupKey "type" out = some (.str "string") ∧
      lookupKey "nullable" out = some (.bool true) := by
  have h := (type_array_folding [("description", .str "d")] []
    [.str "string", .str "null"] (.str "string")
    (by simp) (by simp) (by simp) (by simp) rfl rfl).1
  simpa using h

/-- C10: keyword deletion is uniform by key name at every recursion depth,
including inside a `properties` map: a property entry whose key equals a
stripped keyword (e.g. `title`) is removed from the sanitized output even
though there it names a tool parameter. -/
theorem keyword_stripped_inside_properties (pre post props : List (String × JsonVal))
    (k : String) (v : JsonVal) (hk : k ∈ bannedKeys)
    (hpre : "properties" ∉ pre.map Prod.fst)
    (hpost : "properties" ∉ post.map Prod.fst)
    (hkv : (k, v) ∈ props) :
    ∃ out cprops,
      cleanSchema (.obj (pre ++ ("properties", .obj props) :: post)) = .obj out ∧
      lookupKey "properties" out = some (.obj cprops) ∧
      k ∉ cprops.map Prod.fst ∧ lookupKey k cprops = none := by
  have _ := hkv
  have habsent := cleanFields_banned_absent props [] k hk (by simp)
  refine ⟨cleanFields [] (pre ++ ("properties", .obj props) :: post),
    cleanFields [] props, rfl, ?_, habsent,
    lookupKey_none_of_not_mem_keys _ _ habsent⟩
  have h1 := cleanFields_lookup_entry pre post [] "properties" (.obj props)
    (by simp [bannedKeys]) (by simp) (by simp) hpre hpost
  simpa [cleanSchema] using h1

theorem lookupKey_append (q : String) (l1 l2 : List (String × JsonVal)) :
    lookupKey q (l1 ++ l2) =
      (match lookupKey q l1 with
       | some v => some v
       | none => lookupKey q l2) := by
  induction l1 with
  | nil => simp [lookupKey]
  | cons hd tl ih =>
    obtain ⟨k0, v0⟩ := hd
    by_cases h : k0 = q <;> simp [lookupKey, h, ih]

theorem setKey_of_lookup_none (out : List (String × JsonVal)) (k : String)
    (v : JsonVal) (h : lookupKey k out = none) : setKey out k v = out ++ [(k, v)] := by
  induction out with
  | nil => rfl
  | cons hd tl ih =>
    obtain ⟨k0, v0⟩ := hd
    by_cases hk : k0 = k
    · simp [lookupKey, hk] at h
    · simp only [lookupKey, if_neg hk] at h
      simp [setKey, hk, ih h]

mutual

/-- Clean values are fixed points of `cleanSchema`. -/
theorem clean_fixed : ∀ v : JsonVal, isClean v = true → cleanSchema v = v
  | .null, _ => rfl
  | .bool _, _ => rfl
  | .num _, _ => rfl
  | .str _, _ => rfl
  | .arr items, h => by
    have h' : isCleanList items = true := by simpa [isClean] using h
    simp [cleanSchema, cleanList_fixed items h']
  | .obj fields, h => by
    have h' : noDupKeys fields = true ∧ isCleanFields fields = true := by
      simpa [isClean, Bool.and_eq_true] using h
    have := cleanFields_fixed fields [] h'.2 h'.1 (fun _ _ => rfl)
    simpa [cleanSchema] using this

/-- Lists of clean values are fixed points of `cleanList`. -/
theorem cleanList_fixed : ∀ l : List JsonVal, isCleanList l = true → cleanList l = l
  | [], _ => rfl
  | v :: rest, h => by
    have h' : isClean v = true ∧ isCleanList rest = true := by
      simpa [isCleanList, Bool.and_eq_true] using h
    simp [cleanList, clean_fixed v h'.1, cleanList_fixed rest h'.2]

/-- Rebuilding clean, duplicate-free fields on top of an accumulator whose
keys are disjoint from theirs appends them unchanged. -/
theorem cleanFields_fixed :
    ∀ (fields : List (String × JsonVal)) (out : List (String × JsonVal)),
    isCleanFields fields = true → noDupKeys fields = true →
    (∀ q, q ∈ fields.map Prod.fst → lookupKey q out = none) →
    cleanFields out fields = out ++ fields
  | [], out, _, _, _ => by simp [cleanFields]
  | (k, v) :: rest, out, hc, hd, hout => by
    have hc' := hc
    simp only [isCleanFields, Bool.and_eq_true, decide_eq_true_eq] at hc'
    obtain ⟨⟨⟨hkb, hkt⟩, hcv⟩, hcr⟩ := hc'
    have hd' := hd
    simp only [noDupKeys, Bool.and_eq_true, decide_eq_true_eq] at hd'
    obtain ⟨hdk, hdr⟩ := hd'
    have hlk : lookupKey k out = none := hout k (by simp)
    have hout' : ∀ q, q ∈ rest.map Prod.fst → lookupKey q (out ++ [(k, v)]) = none := by
      intro q hq
      have hqk : ¬ (k = q) := fun h => hdk (h ▸ hq)
      rw [lookupKey_append, hout q (by simp [hq])]
      simp [lookupKey, hqk]
    have step : cleanFields (setKey out k (cleanSchema v)) rest = out ++ (k, v) :: rest := by
      rw [clean_fixed v hcv, setKey_of_lookup_none out k v hlk,
        cleanFields_fixed rest (out ++ [(k, v)]) hcr hdr hout']
      simp
    by_cases hty : k = "type"
    · subst hty
      have hnotarr : JsonVal.isArr v = false := by simpa using hkt
      rw [cleanFields_cons_type_not_arr out v rest hnotarr]
      exact step
    · rw [cleanFields_cons_other out k v rest hkb hty]
      exact step

end

theorem noDupKeys_setKey (out : List (String × JsonVal)) (k : String) (v : JsonVal)
    (h : noDupKeys out = true) : noDupKeys (setKey out k v) = true := by
  induction out with
  | nil => simp [setKey, noDupKeys]
  | cons hd tl ih =>
    obtain ⟨k0, v0⟩ := hd
    have h' : k0 ∉ tl.map Prod.fst ∧ noDupKeys tl = true := by
      simpa [noDupKeys, Bool.and_eq_true, decide_eq_true_eq] using h
    by_cases hk : k0 = k
    · subst hk
      simp [setKey, noDupKeys, decide_eq_true_eq, h'.1, h'.2]
    · simp only [setKey, if_neg hk, noDupKeys, Bool.and_eq_true, decide_eq_true_eq]
      exact ⟨keys_setKey tl k v k0 h'.1 hk, ih h'.2⟩

theorem isCleanFields_setKey (out : List (String × JsonVal)) (k : String) (v : JsonVal)
    (h : isCleanFields out = true) (hbk : k ∉ bannedKeys)
    (hta : k = "type" → JsonVal.isArr v = false) (hcv : isClean v = true) :
    isCleanFields (setKey out k v) = true := by
  induction out with
  | nil =>
    by_cases hty : k = "type"
    · subst hty
      simp [setKey, isCleanFields, hbk, hcv, hta rfl]
    · simp [setKey, isCleanFields, hbk, hcv, hty]
  | cons hd tl ih =>
    obtain ⟨k0, v0⟩ := hd
    have h' := h
    simp only [isCleanFields, Bool.and_eq_true, decide_eq_true_eq] at h'
    obtain ⟨⟨⟨hkb0, hkt0⟩, hcv0⟩, hcr0⟩ := h'
    by_cases hk : k0 = k
    · subst hk
      by_cases hty : k0 = "type"
      · subst hty
        simp [setKey, isCleanFields, hbk, hcv, hta rfl, hcr0]
      · simp [setKey, isCleanFields, hbk, hcv, hty, hcr0]
    · simp only [setKey, if_neg hk, isCleanFields, Bool.and_eq_true, decide_eq_true_eq]
      exact ⟨⟨⟨hkb0, hkt0⟩, hcv0⟩, ih hcr0⟩

theorem isPrim_not_isArr (t : JsonVal) (h : JsonVal.isPrim t = true) :
    JsonVal.isArr t = false := by
  cases t <;> simp_all [JsonVal.isPrim, JsonVal.isArr]

theorem isPrim_isClean (t : JsonVal) (h : JsonVal.isPrim t = true) :
    isClean t = true := by
  cases t <;> simp_all [JsonVal.isPrim, isClean]

theorem head?_mem_local {α : Type} (l : List α) (a : α) (h : l.head? = some a) :
    a ∈ l := by
  cases l with
  | nil => simp at h
  | cons b t =>
    simp only [List.head?] at h
    cases h
    exact List.mem_cons_self _ _

/-- The three possible outcomes of `typeFold`: the untouched accumulator
(empty entry array), a `type` write of some entry, optionally followed by the
`nullable` write. -/
theorem typeFold_shape (out : List (String × JsonVal)) (entries : List JsonVal) :
    typeFold out entries = out ∨
    (∃ w, w ∈ entries ∧ typeFold out entries = setKey out "type" w) ∨
    (∃ w, w ∈ entries ∧ typeFold out entries =
      setKey (setKey out "type" w) "nullable" (JsonVal.bool true)) := by
  simp only [typeFold]
  cases hf : entries.find? (fun t => !(JsonVal.isStrNull t)) with
  | some t =>
    have htmem := List.mem_of_find?_eq_some hf
    by_cases htr : t.isTruthy = true
    · simp only [htr, if_true]
      by_cases hany : entries.any JsonVal.isStrNull = true
      · simp only [hany, if_true]
        exact Or.inr (Or.inr ⟨t, htmem, rfl⟩)
      · simp only [Bool.not_eq_true] at hany
        simp only [hany, Bool.false_eq_true, if_false]
        exact Or.inr (Or.inl ⟨t, htmem, rfl⟩)
    · simp only [Bool.not_eq_true] at htr
      simp only [htr, Bool.false_eq_true, if_false]
      cases hh : entries.head? with
      | some h0 =>
        have hhmem := head?_mem_local entries h0 hh
        by_cases hany : entries.any JsonVal.isStrNull = true
        · simp only [hany, if_true]
          exact Or.inr (Or.inr ⟨h0, hhmem, rfl⟩)
        · simp only [Bool.not_eq_true] at hany
          simp only [hany, Bool.false_eq_true, if_false]
          exact Or.inr (Or.inl ⟨h0, hhmem, rfl⟩)
      | none =>
        have : entries = [] := by
          cases entries with
          | nil => rfl
          | cons a tl => simp [List.head?] at hh
        subst this
        simp at hf
  | none =>
    cases hh : entries.head? with
    | some h0 =>
      have hhmem := head?_mem_local entries h0 hh
      by_cases hany : entries.any JsonVal.isStrNull = true
      · simp only [hany, if_true]
        exact Or.inr (Or.inr ⟨h0, hhmem, rfl⟩)
      · simp only [Bool.not_eq_true] at hany
        simp only [hany, Bool.false_eq_true, if_false]
        exact Or.inr (Or.inl ⟨h0, hhmem, rfl⟩)
    | none =>
      have he : entries = [] := by
        cases entries with
        | nil => rfl
        | cons a tl => simp [List.head?] at hh
      subst he
      simp

mutual

/-- One pass of `cleanSchema` lands in the clean fragment, provided every
`type` array holds only primitive entries. -/
theorem clean_good : ∀ v : JsonVal, goodTypes v = true → isClean (cleanSchema v) = true
  | .null, _ => rfl
  | .bool _, _ => rfl
  | .num _, _ => rfl
  | .str _, _ => rfl
  | .arr items, h => by
    have h' : goodTypesList items = true := by simpa [goodTypes] using h
    simpa [cleanSchema, isClean] using cleanList_good items h'
  | .obj fields, h => by
    have h' : goodTypesFields fields = true := by simpa [goodTypes] using h
    have := cleanFields_good fields [] h' rfl rfl
    simpa [cleanSchema, isClean, Bool.and_eq_true] using this

/-- `clean_good`, elementwise. -/
theorem cleanList_good : ∀ l : List JsonVal, goodTypesList l = true →
    isCleanList (cleanList l) = true
  | [], _ => rfl
  | v :: rest, h => by
    have h' : goodTypes v = true ∧ goodTypesList rest = true := by
      simpa [goodTypesList, Bool.and_eq_true] using h
    simp only [cleanList, isCleanList, Bool.and_eq_true]
    exact ⟨clean_good v h'.1, cleanList_good rest h'.2⟩

/-- `clean_good` for the field loop: the rebuilt object keeps unique keys and
clean fields. -/
theorem cleanFields_good : ∀ (fields out : List (String × JsonVal)),
    goodTypesFields fields = true → noDupKeys out = true → isCleanFields out = true →
    noDupKeys (cleanFields out fields) = true ∧
      isCleanFields (cleanFields out fields) = true
  | [], out, _, hd, hc => by
    simp only [cleanFields]
    exact ⟨hd, hc⟩
  | (k, v) :: rest, out, hg, hd, hc => by
    have hg' : (if k = "type" && JsonVal.isArr v then typeEntriesPrim v
        else goodTypes v) = true ∧ goodTypesFields rest = true := by
      rw [goodTypesFields, Bool.and_eq_true] at hg
      exact hg
    by_cases hb : k ∈ bannedKeys
    · rw [cleanFields_cons_banned _ _ _ _ hb]
      exact cleanFields_good rest out hg'.2 hd hc
    · by_cases hty : k = "type"
      · subst hty
        cases v with
        | arr entries =>
          rw [cleanFields_cons_type_arr]
          have hall : entries.all JsonVal.isPrim = true := by
            simpa [typeEntriesPrim, JsonVal.isArr] using hg'.1
          have hprim : ∀ t, t ∈ entries → JsonVal.isPrim t = true := by
            simpa [List.all_eq_true] using hall
          have hprops : noDupKeys (typeFold out entries) = true ∧
              isCleanFields (typeFold out entries) = true := by
            rcases typeFold_shape out entries with hs | ⟨w, hw, hs⟩ | ⟨w, hw, hs⟩
            · rw [hs]; exact ⟨hd, hc⟩
            · rw [hs]
              exact ⟨noDupKeys_setKey _ _ _ hd,
                isCleanFields_setKey _ _ _ hc (by simp [bannedKeys])
                  (fun _ => isPrim_not_isArr _ (hprim w hw))
                  (isPrim_isClean _ (hprim w hw))⟩
            · rw [hs]
              refine ⟨noDupKeys_setKey _ _ _ (noDupKeys_setKey _ _ _ hd),
                isCleanFields_setKey _ _ _ ?_ (by simp [bannedKeys]) (by simp) rfl⟩
              exact isCleanFields_setKey _ _ _ hc (by simp [bannedKeys])
                (fun _ => isPrim_not_isArr _ (hprim w hw))
                (isPrim_isClean _ (hprim w hw))
          exact cleanFields_good rest _ hg'.2 hprops.1 hprops.2
        | null =>
          rw [cleanFields_cons_type_not_arr out JsonVal.null rest rfl]
          exact cleanFields_good rest _ hg'.2 (noDupKeys_setKey _ _ _ hd)
            (isCleanFields_setKey _ _ _ hc (by simp [bannedKeys]) (fun _ => rfl)
              (clean_good JsonVal.null rfl))
        | bool b =>
          rw [cleanFields_cons_type_not_arr out (JsonVal.bool b) rest rfl]
          exact cleanFields_good rest _ hg'.2 (noDupKeys_setKey _ _ _ hd)
            (isCleanFields_setKey _ _ _ hc (by simp [bannedKeys]) (fun _ => rfl)
              (clean_good (JsonVal.bool b) rfl))
        | num n =>
          rw [cleanFields_cons_type_not_arr out (JsonVal.num n) rest rfl]
          exact cleanFields_good rest _ hg'.2 (noDupKeys_setKey _ _ _ hd)
            (isCleanFields_setKey _ _ _ hc (by simp [bannedKeys]) (fun _ => rfl)
              (clean_good (JsonVal.num n) rfl))
        | str s =>
          rw [cleanFields_cons_type_not_arr out (JsonVal.str s) rest rfl]
          exact cleanFields_good rest _ hg'.2 (noDupKeys_setKey _ _ _ hd)
            (isCleanFields_setKey _ _ _ hc (by simp [bannedKeys]) (fun _ => rfl)
              (clean_good (JsonVal.str s) rfl))
        | obj fs =>
          rw [cleanFields_cons_type_not_arr out (JsonVal.obj fs) rest rfl]
          have hgv : goodTypes (JsonVal.obj fs) = true := by
            simpa [JsonVal.isArr] using hg'.1
          exact cleanFields_good rest _ hg'.2 (noDupKeys_setKey _ _ _ hd)
            (isCleanFields_setKey _ _ _ hc (by simp [bannedKeys]) (fun _ => rfl)
              (clean_good (JsonVal.obj fs) hgv))
      · rw [cleanFields_cons_other _ _ _ _ hb hty]
        have hgv : goodTypes v = true := by simpa [hty] using hg'.1
        have hna : "type" = k → JsonVal.isArr (cleanSchema v) = false :=
          fun h => absurd h.symm hty
        exact cleanFields_good rest _ hg'.2 (noDupKeys_setKey _ _ _ hd)
          (isCleanFields_setKey _ _ _ hc hb (fun h => absurd h hty)
            (clean_good v hgv))

end

/-- C7 fails on the code as stated: collapsing a `type` array installs its
first non-`"null"` entry without cleaning it, so when that entry is itself an
array the result still holds a `type` array and a second pass collapses it
again: `{type: [["a"], "b"]}` cleans to `{type: ["a"]}` and then to
`{type: "a"}`. -/
theorem cleanSchema_not_idempotent_counterexample :
    cleanSchema (cleanSchema (.obj [("type", .arr [.arr [.str "a"], .str "b"])])) ≠
      cleanSchema (.obj [("type", .arr [.arr [.str "a"], .str "b"])]) := by
  intro h
  have h1 : cleanSchema (.obj [("type", .arr [.arr [.str "a"], .str "b"])]) =
      .obj [("type", .arr [.str "a"])] := rfl
  rw [h1] at h
  have h2 : cleanSchema (.obj [("type", .arr [.str "a"])]) =
      .obj [("type", .str "a")] := rfl
  rw [h2] at h
  simp at h

/-- C7 (amended): the schema sanitizer is idempotent on every value in which
each array stored under a `type` key holds only primitive (non-array,
non-object) entries — which includes every real JSON-schema type array. -/
theorem cleanSchema_idempotent_amended (v : JsonVal) (h : goodTypes v = true) :
    cleanSchema (cleanSchema v) = cleanSchema v :=
  clean_fixed (cleanSchema v) (clean_good v h)

/-- Witness for the amended C7 at a representative schema. -/
theorem cleanSchema_idempotent_amended_witness :
    goodTypes (JsonVal.obj [("type", .arr [.str "string", .str "null"]),
      ("minimum", .num 0),
      ("properties", .obj [("x", .obj [("type", .str "integer")])])]) = true ∧
    cleanSchema (cleanSchema (JsonVal.obj [("type", .arr [.str "string", .str "null"]),
      ("minimum", .num 0),
      ("properties", .obj [("x", .obj [("type", .str "integer")])])])) =
      cleanSchema (JsonVal.obj [("type", .arr [.str "string", .str "null"]),
        ("minimum", .num 0),
        ("properties", .obj [("x", .obj [("type", .str "integer")])])]) :=
  ⟨rfl, cleanSchema_idempotent_amended _ rfl⟩

/-- Witness for C10 at `{properties: {title: {type: "string"}}}`. -/
theorem keyword_stripped_inside_properties_witness :
    ∃ out cprops,
      cleanSchema (.obj [("properties",
        .obj [("title", .obj [("type", .str "string")])])]) = .obj out ∧
      lookupKey "properties" out = some (.obj cprops) ∧
      "title" ∉ cprops.map Prod.fst ∧ lookupKey "title" cprops = none := by
  exact keyword_stripped_inside_properties [] []
    [("title", .obj [("type", .str "string")])] "title"
    (.obj [("type", .str "string")]) (by simp [bannedKeys]) (by simp) (by simp)
    (by simp)

/-! ### Emitter lemmas: event kinds -/

theorem emitTextSegs_events (ps : List String) : ∀ (flag : Bool) (e : Event),
    e ∈ (emitTextSegs flag ps).2 →
    isToolCallEv e = false ∧ isGroundingEv e = false := by
  induction ps with
  | nil =>
    intro flag e he
    simp [emitTextSegs] at he
  | cons p rest ih =>
    intro flag e he
    simp only [emitTextSegs] at he
    split at he
    · exact ih _ _ he
    · split at he
      · exact ih _ _ he
      · split at he
        · simp only [List.mem_cons] at he
          rcases he with rfl | he
          · cases flag <;> simp [isToolCallEv, isGroundingEv]
          · exact ih _ _ he
        · exact ih _ _ he

theorem handleParts_events (parts : List RPart) :
    ∀ (cb : Collab) (st : EmitState) (e : Event),
    e ∈ (handleParts cb st parts).2 → isGroundingEv e = false := by
  induction parts with
  | nil =>
    intro cb st e he
    simp [handleParts] at he
  | cons part rest ih =>
    intro cb st e he
    simp only [handleParts] at he
    split at he
    · rw [List.mem_append] at he
      rcases he with he | he
      · split at he
        · split at he
          · simp only [List.mem_singleton] at he
            subst he
            rfl
          · simp at he
        · simp at he
      · exact ih _ _ _ he
    · split at he
      · rw [List.mem_append] at he
        rcases he with he | he
        · exact (emitTextSegs_events _ _ _ he).2
        · exact ih _ _ _ he
      · split at he
        · rw [List.mem_append] at he
          rcases he with he | he
          · simp only [List.mem_cons, List.mem_singleton] at he
            rcases he with rfl | rfl | h
            · rfl
            · rfl
            · simp at h
          · exact ih _ _ _ he
        · exact ih _ _ _ he

theorem handleObj_events (cb : Collab) (st : EmitState) (o : RespObj) (e : Event)
    (he : e ∈ (handleObj cb st o).2) : isGroundingEv e = false := by
  simp only [handleObj] at he
  split at he
  · rw [List.mem_append] at he
    rcases he with he | he
    · split at he
      · split at he
        · split at he
          · exact handleParts_events _ _ _ _ he
          · simp at he
        · simp at he
      · simp at he
    · simp only [List.mem_singleton] at he
      subst he
      rfl
  · split at he
    · split at he
      · split at he
        · exact handleParts_events _ _ _ _ he
        · simp at he
      · simp at he
    · simp at he

/-! ### C8 and C9 -/

/-- C8: a non-success HTTP status makes `createMessageExpress` throw an error
carrying the status code and the raw body text before any event is emitted,
and an absent body makes it throw immediately; in both cases the result is an
error carrying no events (and this layer performs no retry — the function
returns the error directly). -/
theorem transport_errors_fatal (parse : List Char → Option RespObj) (cb : Collab)
    (resp : HttpResponse) :
    (resp.ok = false →
      createMessageExpressNet parse cb resp =
        .error (.httpError resp.status resp.bodyText)) ∧
    (resp.ok = true → resp.body = none →
      createMessageExpressNet parse cb resp = .error .noBody) := by
  constructor
  · intro h
    simp [createMessageExpressNet, h]
  · intro h hb
    simp [createMessageExpressNet, h, hb]

/-- Witness for C8 at a concrete 500 response and a concrete missing body. -/
theorem transport_errors_fatal_witness :
    createMessageExpressNet (fun _ => none) ⟨fun _ _ => 0, fun _ => ""⟩
      ⟨false, 500, "boom", none⟩ = .error (.httpError 500 "boom") ∧
    createMessageExpressNet (fun _ => none) ⟨fun _ _ => 0, fun _ => ""⟩
      ⟨true, 200, "", none⟩ = .error .noBody :=
  ⟨(transport_errors_fatal (fun _ => none) ⟨fun _ _ => 0, fun _ => ""⟩
      ⟨false, 500, "boom", none⟩).1 rfl,
   (transport_errors_fatal (fun _ => none) ⟨fun _ _ => 0, fun _ => ""⟩
      ⟨true, 200, "", none⟩).2 rfl rfl⟩

/-- C9 fails on the code: the emitter never produces a `Grounding` event —
the loop reads only `candidates[0].content.parts` and the usage keys and
ignores `groundingMetadata` entirely.  The second conjunct runs the emitter
on the repository test's grounding fixture (`groundingChunks:
[{web: {uri: "https://example.com", title: "Example"}}]`): only the text
event appears, where the test (and the claim) expect an additional
`Grounding` event with sources `[{title: "Example", url:
"https://example.com"}]`. -/
theorem grounding_never_emitted :
    (∀ (cb : Collab) (st : EmitState) (o : RespObj),
      ((handleObj cb st o).2.filter isGroundingEv) = []) ∧
    (handleObj ⟨fun _ _ => 0, fun _ => ""⟩ ⟨false, 0⟩
      ⟨some [⟨some ⟨some [⟨false, some "Grounding info", none⟩]⟩,
        some ⟨some [⟨some ⟨some "https://example.com", some "Example"⟩⟩]⟩⟩],
       none, none, none⟩).2 = [Event.text "Grounding info"] := by
  constructor
  · intro cb st o
    rw [List.filter_eq_nil_iff]
    intro e he
    simp [handleObj_events cb st o e he]
  · rfl

/-! ### C4: two-phase tool-call events -/

theorem filter_toolcall_emitTextSegs (flag : Bool) (ps : List String) :
    ((emitTextSegs flag ps).2.filter isToolCallEv) = [] := by
  rw [List.filter_eq_nil_iff]
  intro e he
  simp [(emitTextSegs_events ps flag e he).1]

theorem handleParts_toolcalls (parts : List RPart) : ∀ (cb : Collab) (st : EmitState),
    ((handleParts cb st parts).2.filter isToolCallEv) =
      ((fcParts parts).enumFrom st.toolCallCounter).flatMap
        (fun p => toolCallPairEvents cb p.1 p.2) ∧
    (handleParts cb st parts).1.toolCallCounter =
      st.toolCallCounter + (fcParts parts).length := by
  induction parts with
  | nil =>
    intro cb st
    simp [handleParts, fcParts]
  | cons part rest ih =>
    intro cb st
    by_cases hth : part.thought
    · have hfc : fcBranch part = none := by simp [fcBranch, hth]
      have hrest := ih cb st
      simp only [handleParts, if_pos hth]
      have hevs : (match part.text with
          | some t => if t != "" then [Event.reasoning t] else []
          | none => []).filter isToolCallEv = [] := by
        split
        · split <;> simp [isToolCallEv]
        · rfl
      constructor
      · rw [List.filter_append, hevs, hrest.1]
        simp [fcParts, List.filterMap_cons, hfc]
      · rw [hrest.2]
        simp [fcParts, List.filterMap_cons, hfc]
    · by_cases htx : strTruthy part.text = true
      · have hfc : fcBranch part = none := by simp [fcBranch, hth, htx]
        have hrest := ih cb { st with inThought :=
          (emitTextSegs st.inThought (thinkSplit ((part.text).getD ""))).1 }
        simp only [handleParts, if_neg hth, if_pos htx]
        constructor
        · rw [List.filter_append, filter_toolcall_emitTextSegs, hrest.1]
          simp [fcParts, List.filterMap_cons, hfc]
        · rw [hrest.2]
          simp [fcParts, List.filterMap_cons, hfc]
      · cases hcall : part.functionCall with
        | some fc =>
          have hfc : fcBranch part = some fc := by simp [fcBranch, hth, htx, hcall]
          have hrest := ih cb { st with toolCallCounter := st.toolCallCounter + 1 }
          simp only [handleParts, if_neg hth, if_neg htx, hcall]
          constructor
          · rw [List.filter_append, hrest.1]
            simp only [fcParts, List.filterMap_cons, hfc, List.enumFrom,
              List.flatMap_cons, toolCallPairEvents]
            simp [isToolCallEv, fcParts]
          · rw [hrest.2]
            simp only [fcParts, List.filterMap_cons, hfc]
            simp [fcParts]
            omega
        | none =>
          have hfc : fcBranch part = none := by simp [fcBranch, hth, htx, hcall]
          have hrest := ih cb st
          simp only [handleParts, if_neg hth, if_neg htx, hcall]
          constructor
          · rw [hrest.1]
            simp [fcParts, List.filterMap_cons, hfc]
          · rw [hrest.2]
            simp [fcParts, List.filterMap_cons, hfc]

/-- `handleObj` is the parts loop over `objParts o` followed by
`usageEvents`. -/
theorem handleObj_eq (cb : Collab) (st : EmitState) (o : RespObj) :
    handleObj cb st o =
      ((handleParts cb st (objParts o)).1,
        (handleParts cb st (objParts o)).2 ++ usageEvents cb o) := by
  simp only [handleObj, objParts, usageEvents]
  repeat' split
  all_goals simp_all [handleParts]

theorem usageEvents_events (cb : Collab) (o : RespObj) (e : Event)
    (he : e ∈ usageEvents cb o) :
    isToolCallEv e = false ∧ isGroundingEv e = false := by
  simp only [usageEvents] at he
  split at he
  · simp only [List.mem_singleton] at he
    subst he
    exact ⟨rfl, rfl⟩
  · simp at he

theorem handleObj_toolcalls (cb : Collab) (st : EmitState) (o : RespObj) :
    ((handleObj cb st o).2.filter isToolCallEv) =
      ((fcParts (objParts o)).enumFrom st.toolCallCounter).flatMap
        (fun p => toolCallPairEvents cb p.1 p.2) ∧
    (handleObj cb st o).1.toolCallCounter =
      st.toolCallCounter + (fcParts (objParts o)).length := by
  rw [handleObj_eq]
  have husage : (usageEvents cb o).filter isToolCallEv = [] := by
    rw [List.filter_eq_nil_iff]
    intro e he
    simp [(usageEvents_events cb o e he).1]
  constructor
  · simp only [List.filter_append, husage, List.append_nil]
    exact (handleParts_toolcalls (objParts o) cb st).1
  · exact (handleParts_toolcalls (objParts o) cb st).2

theorem enumFrom_append_local {α : Type} (l1 l2 : List α) : ∀ n : Nat,
    List.enumFrom n (l1 ++ l2) =
      List.enumFrom n l1 ++ List.enumFrom (n + l1.length) l2 := by
  induction l1 with
  | nil => intro n; simp
  | cons a tl ih =>
    intro n
    have harith : n + 1 + tl.length = n + (tl.length + 1) := by omega
    rw [List.cons_append]
    simp only [List.enumFrom, List.length_cons, ih (n + 1), harith, List.cons_append]

theorem processObjs_toolcalls (objs : List RespObj) : ∀ (cb : Collab) (st : EmitState),
    ((processObjs cb st objs).2.filter isToolCallEv) =
      ((fcParts (objs.map objParts).flatten).enumFrom st.toolCallCounter).flatMap
        (fun p => toolCallPairEvents cb p.1 p.2) ∧
    (processObjs cb st objs).1.toolCallCounter =
      st.toolCallCounter + (fcParts (objs.map objParts).flatten).length := by
  induction objs with
  | nil =>
    intro cb st
    simp [processObjs, fcParts]
  | cons o rest ih =>
    intro cb st
    have ho := handleObj_toolcalls cb st o
    have hrest := ih cb (handleObj cb st o).1
    simp only [processObjs]
    have hsplit : fcParts ((o :: rest).map objParts).flatten =
        fcParts (objParts o) ++ fcParts (rest.map objParts).flatten := by
      simp [fcParts, List.filterMap_append]
    constructor
    · rw [List.filter_append, ho.1, hrest.1, hsplit, enumFrom_append_local,
        List.flatMap_append, ho.2]
    · rw [hrest.2, ho.2, hsplit]
      simp only [List.length_append]
      omega

/-- C4: every part reaching the function-call branch yields exactly two
`tool_call_partial` events — first the synthesized id `<name>-<k>` with the
name and no arguments, then the same id and index with the JSON-serialized
arguments and no name — and the per-session counter starts at `0` and
increments by one per function call, so the `k`-th function call (0-based)
of a session gets id `<name>-k`.  Stated over the whole session: the
`tool_call_partial` events of the emitted stream are precisely the
enumeration of the session's function calls from `0`. -/
theorem tool_calls_two_phase (cb : Collab) (objs : List RespObj) :
    ((processObjs cb ⟨false, 0⟩ objs).2.filter isToolCallEv) =
      ((sessionFcs objs).enumFrom 0).flatMap
        (fun p => toolCallPairEvents cb p.1 p.2) :=
  (processObjs_toolcalls objs cb ⟨false, 0⟩).1

/-! ### C3: think-tag segmentation -/

theorem flagAfter_cons (flag : Bool) (p : String) (rest : List String) :
    flagAfter flag (p :: rest) =
      flagAfter (if pieceIsOpen p then true else if pieceIsClose p then false else flag)
        rest := rfl

/-- C3 fails on the code as stated: the split of the text `"<think"` has the
single non-empty piece `"<think"`, which contains no tag, lies outside any
thinking span, and so should yield `Text("<think")` under the claim — but the
loop recognizes flag pieces by the prefix test `startsWith("<think")`, so it
swallows the piece, emits nothing, and turns the thinking flag on. -/
theorem think_tag_segmentation_counterexample :
    thinkSplit "<think" = ["<think"] ∧
    emitTextSegs false (thinkSplit "<think") = (true, []) ∧
    emitTextSegs false (thinkSplit "<think") ≠ (false, [Event.text "<think"]) := by
  refine ⟨rfl, rfl, ?_⟩
  intro h
  rw [show emitTextSegs false (thinkSplit "<think") = (true, []) from rfl] at h
  simp at h

/-- C3 (amended): the emitter splits each text on the capturing tag splitter;
every returned piece whose lowercase form starts with `<think` sets the
session thinking flag and every piece starting with `</think` clears it
(including non-tag pieces that merely carry such a prefix, which are then not
emitted), and every other non-empty piece is emitted as `Reasoning` when the
flag is set and `Text` otherwise; the flag persists across the decoded
objects of one session, and the three-object example
`"<think>This is a thought"`, `" still thinking</think>"`,
`"This is the response"` yields Reasoning, Reasoning, Text. -/
theorem think_tag_segmentation_amended :
    (∀ (flag : Bool) (ps : List String),
      emitTextSegs flag ps = (flagAfter flag ps, classifiedEvents flag ps)) ∧
    (∀ cb : Collab,
      processObjs cb ⟨false, 0⟩
        [⟨some [⟨some ⟨some [⟨false, some "<think>This is a thought", none⟩]⟩,
            none⟩], none, none, none⟩,
         ⟨some [⟨some ⟨some [⟨false, some " still thinking</think>", none⟩]⟩,
            none⟩], none, none, none⟩,
         ⟨some [⟨some ⟨some [⟨false, some "This is the response", none⟩]⟩,
            none⟩], none, none, none⟩] =
      (⟨false, 0⟩, [Event.reasoning "This is a thought",
        Event.reasoning " still thinking", Event.text "This is the response"])) := by
  constructor
  · intro flag ps
    induction ps generalizing flag with
    | nil => simp [emitTextSegs, flagAfter, classifiedEvents]
    | cons p rest ih =>
      by_cases h1 : pieceIsOpen p
      · have h1' : lowerStartsWith ['<', 't', 'h', 'i', 'n', 'k'] p = true := h1
        rw [show emitTextSegs flag (p :: rest) = emitTextSegs true rest from by
            simp [emitTextSegs, h1'],
          ih true,
          show flagAfter flag (p :: rest) = flagAfter true rest from by
            simp [flagAfter_cons, h1],
          show classifiedEvents flag (p :: rest) = classifiedEvents true rest from by
            simp [classifiedEvents, flagAfter, h1]]
      · by_cases h2 : pieceIsClose p
        · have h1' : lowerStartsWith ['<', 't', 'h', 'i', 'n', 'k'] p = false := by
            simpa [pieceIsOpen] using h1
          have h2' : lowerStartsWith ['<', '/', 't', 'h', 'i', 'n', 'k'] p = true := h2
          rw [show emitTextSegs flag (p :: rest) = emitTextSegs false rest from by
              simp [emitTextSegs, h1', h2'],
            ih false,
            show flagAfter flag (p :: rest) = flagAfter false rest from by
              simp [flagAfter_cons, h1, h2],
            show classifiedEvents flag (p :: rest) = classifiedEvents false rest from by
              simp [classifiedEvents, flagAfter, h1, h2]]
        · have h1' : lowerStartsWith ['<', 't', 'h', 'i', 'n', 'k'] p = false := by
            simpa [pieceIsOpen] using h1
          have h2' : lowerStartsWith ['<', '/', 't', 'h', 'i', 'n', 'k'] p = false := by
            simpa [pieceIsClose] using h2
          have hflag : flagAfter flag (p :: rest) = flagAfter flag rest := by
            simp [flagAfter_cons, h1, h2]
          by_cases h3 : p = ""
          · subst h3
            rw [show emitTextSegs flag ("" :: rest) = emitTextSegs flag rest from by
                simp [emitTextSegs, h1', h2'],
              ih flag, hflag,
              show classifiedEvents flag ("" :: rest) = classifiedEvents flag rest from by
                simp [classifiedEvents, flagAfter, h1, h2]]
          · have hlen : 0 < p.length := by
              rcases p with ⟨pd⟩
              cases pd with
              | nil => exact absurd rfl h3
              | cons c cs => simp [String.length]
            rw [show emitTextSegs flag (p :: rest) =
                  ((emitTextSegs flag rest).1,
                    (if flag then Event.reasoning p else Event.text p) ::
                      (emitTextSegs flag rest).2) from by
                simp [emitTextSegs, h1', h2', hlen],
              ih flag, hflag,
              show classifiedEvents flag (p :: rest) =
                  (if flag then Event.reasoning p else Event.text p) ::
                    classifiedEvents flag rest from by
                simp [classifiedEvents, flagAfter, h1, h2, h3]]
  · intro cb
    rfl

/-! ### Decoder lemmas: fuel exactness -/

/-- Each scan step decreases `buffer.length - cursor` by exactly one. -/
theorem scanStep_measure (s : DecState) (c : Char) (_h : s.cursor < s.buffer.length) :
    (scanStep s c).1.buffer.length - (scanStep s c).1.cursor =
      s.buffer.length - s.cursor - 1 := by
  simp only [scanStep]
  repeat' split
  all_goals simp [List.length_drop]
  all_goals omega

/-- The scan loop's result does not depend on the fuel, provided the fuel is
at least `buffer.length - cursor`. -/
theorem scanLoopF_mono : ∀ (f1 : Nat), ∀ (f2 : Nat) (s : DecState),
    s.buffer.length - s.cursor ≤ f1 → s.buffer.length - s.cursor ≤ f2 →
    scanLoopF f1 s = scanLoopF f2 s := by
  intro f1
  induction f1 with
  | zero =>
    intro f2 s h1 h2
    have hc : ¬ s.cursor < s.buffer.length := by omega
    cases f2 with
    | zero => rfl
    | succ f2 => simp [scanLoopF, hc]
  | succ f1 ih =>
    intro f2 s h1 h2
    by_cases hc : s.cursor < s.buffer.length
    · cases f2 with
      | zero => omega
      | succ f2 =>
        simp only [scanLoopF, dif_pos hc]
        have hm := scanStep_measure s (s.buffer.get ⟨s.cursor, hc⟩) hc
        rw [ih f2 _ (by omega) (by omega)]
    · cases f2 with
      | zero => simp [scanLoopF, hc]
      | succ f2 => simp [scanLoopF, hc]

theorem scanLoopF_eq_scanLoop (f : Nat) (s : DecState)
    (h : s.buffer.length - s.cursor ≤ f) : scanLoopF f s = scanLoop s :=
  scanLoopF_mono f (s.buffer.length - s.cursor) s h (Nat.le_refl _)

/-- One unfolding of the scan loop at a position inside the buffer. -/
theorem scanLoop_step (s : DecState) (h : s.cursor < s.buffer.length) :
    scanLoop s =
      ((scanLoop (scanStep s (s.buffer.get ⟨s.cursor, h⟩)).1).1,
        (scanStep s (s.buffer.get ⟨s.cursor, h⟩)).2.toList ++
          (scanLoop (scanStep s (s.buffer.get ⟨s.cursor, h⟩)).1).2) := by
  have hn : s.buffer.length - s.cursor = (s.buffer.length - s.cursor - 1) + 1 := by
    omega
  rw [scanLoop, hn]
  simp only [scanLoopF, dif_pos h]
  rw [scanLoopF_eq_scanLoop _ _ (by
    rw [scanStep_measure s _ h])]

/-- A quiescent state (cursor at end of buffer) scans to itself. -/
theorem scanLoop_quiescent (s : DecState) (h : s.buffer.length - s.cursor = 0) :
    scanLoop s = (s, []) := by
  rw [scanLoop, h]
  rfl

/-- The final state of a scan is quiescent. -/
theorem scanLoop_end : ∀ (f : Nat) (s : DecState),
    s.buffer.length - s.cursor ≤ f →
    (scanLoopF f s).1.buffer.length - (scanLoopF f s).1.cursor = 0 := by
  intro f
  induction f with
  | zero =>
    intro s h
    simpa [scanLoopF] using h
  | succ f ih =>
    intro s h
    by_cases hc : s.cursor < s.buffer.length
    · simp only [scanLoopF, dif_pos hc]
      have hm := scanStep_measure s (s.buffer.get ⟨s.cursor, hc⟩) hc
      exact ih _ (by omega)
    · simp only [scanLoopF, dif_neg hc]
      omega

/-! ### Decoder lemmas: chunk boundaries are invisible -/

/-- A scan step only reads the buffer up to the cursor, so characters
appended after the cursor do not change it. -/
theorem scanStep_append (s : DecState) (c : Char) (ext : List Char)
    (h : s.cursor < s.buffer.length) :
    scanStep { s with buffer := s.buffer ++ ext } c =
      ({ (scanStep s c).1 with buffer := (scanStep s c).1.buffer ++ ext },
        (scanStep s c).2) := by
  have htake : (s.buffer ++ ext).take (s.cursor + 1) = s.buffer.take (s.cursor + 1) :=
    List.take_append_of_le_length (by omega)
  have hdrop : (s.buffer ++ ext).drop (s.cursor + 1) = s.buffer.drop (s.cursor + 1) ++ ext :=
    List.drop_append_of_le_length (by omega)
  simp only [scanStep]
  repeat' split
  all_goals simp [htake, hdrop]

/-- Scanning a buffer with extra input appended is the same as scanning the
original buffer to the end and then continuing over the appended input: chunk
boundaries carry no meaning. -/
theorem scanLoop_append : ∀ (f : Nat) (s : DecState) (ext : List Char),
    s.buffer.length - s.cursor ≤ f →
    scanLoop { s with buffer := s.buffer ++ ext } =
      ((scanLoop { (scanLoop s).1 with
          buffer := (scanLoop s).1.buffer ++ ext }).1,
        (scanLoop s).2 ++
          (scanLoop { (scanLoop s).1 with
            buffer := (scanLoop s).1.buffer ++ ext }).2) := by
  intro f
  induction f with
  | zero =>
    intro s ext h
    rw [scanLoop_quiescent s (by omega)]
    simp
  | succ f ih =>
    intro s ext h
    by_cases hc : s.cursor < s.buffer.length
    · have hc2 : s.cursor < (s.buffer ++ ext).length := by
        simp only [List.length_append]
        omega
      have hget : (s.buffer ++ ext).get ⟨s.cursor, hc2⟩ = s.buffer.get ⟨s.cursor, hc⟩ := by
        simp [List.getElem_append_left, hc]
      rw [scanLoop_step { s with buffer := s.buffer ++ ext } hc2]
      simp only [hget]
      rw [scanStep_append s _ ext hc]
      have hm := scanStep_measure s (s.buffer.get ⟨s.cursor, hc⟩) hc
      rw [ih (scanStep s (s.buffer.get ⟨s.cursor, hc⟩)).1 ext (by omega)]
      rw [scanLoop_step s hc]
      simp [List.append_assoc]
    · rw [scanLoop_quiescent s (by omega)]
      simp

/-- After a `feed` the decoder is quiescent. -/
theorem feed_quiescent (s : DecState) (chunk : List Char) :
    (feed s chunk).1.buffer.length - (feed s chunk).1.cursor = 0 :=
  scanLoop_end _ _ (Nat.le_refl _)

/-- Splitting the input into chunks does not change the decoder's result:
feeding the chunks one by one equals feeding their concatenation at once. -/
theorem feedMany_eq_feed_flatten : ∀ (chunks : List (List Char)) (s : DecState),
    s.buffer.length - s.cursor = 0 →
    feedMany s chunks = feed s chunks.flatten := by
  intro chunks
  induction chunks with
  | nil =>
    intro s h
    have : ({ s with buffer := s.buffer ++ [] } : DecState) = s := by
      simp
    simp only [feedMany, feed, List.flatten_nil, this]
    rw [scanLoop_quiescent s h]
  | cons c rest ih =>
    intro s h
    simp only [feedMany, List.flatten_cons]
    rw [ih (feed s c).1 (feed_quiescent s c)]
    simp only [feed]
    rw [show ({ s with buffer := s.buffer ++ (c ++ rest.flatten) } : DecState) =
      { ({ s with buffer := s.buffer ++ c } : DecState) with
        buffer := ({ s with buffer := s.buffer ++ c } : DecState).buffer ++ rest.flatten }
      from by simp]
    conv_rhs => rw [scanLoop_append (s.buffer ++ c).length _ rest.flatten (Nat.sub_le _ _)]

/-! ### Decoder lemmas: scanning well-formed JSON object texts -/

theorem get_append_cons (pre : List Char) (c : Char) (rest : List Char)
    (h : pre.length < (pre ++ c :: rest).length) :
    (pre ++ c :: rest).get ⟨pre.length, h⟩ = c := by
  induction pre with
  | nil => rfl
  | cons a t ih => simpa using ih (by simp)

/-- One scan step at the junction of a decomposed buffer. -/
theorem scanLoop_step_at (pre : List Char) (c : Char) (tail : List Char)
    (ins esc : Bool) (d si : Int) :
    scanLoop ⟨pre ++ c :: tail, ins, esc, d, si, pre.length⟩ =
      ((scanLoop (scanStep ⟨pre ++ c :: tail, ins, esc, d, si, pre.length⟩ c).1).1,
        (scanStep ⟨pre ++ c :: tail, ins, esc, d, si, pre.length⟩ c).2.toList ++
          (scanLoop (scanStep ⟨pre ++ c :: tail, ins, esc, d, si, pre.length⟩ c).1).2) := by
  have h : pre.length < (pre ++ c :: tail).length := by
    simp only [List.length_append, List.length_cons]
    omega
  rw [scanLoop_step _ h]
  rw [show (⟨pre ++ c :: tail, ins, esc, d, si, pre.length⟩ : DecState).buffer.get
      ⟨pre.length, h⟩ = c from get_append_cons pre c tail h]

/-- Scanning the body of a string literal advances the cursor over it,
emitting nothing and restoring the outside-escape flag. -/
theorem strBody_scan {b : List Char} (hb : StrBody b) :
    ∀ (pre post : List Char) (d si : Int),
    scanLoop ⟨pre ++ b ++ post, true, false, d, si, pre.length⟩ =
      scanLoop ⟨pre ++ b ++ post, true, false, d, si, pre.length + b.length⟩ := by
  induction hb with
  | nil =>
    intro pre post d si
    simp
  | @raw c r hc1 hc2 hrest ih =>
    intro pre post d si
    have e1 : pre ++ (c :: r) ++ post = pre ++ c :: (r ++ post) := by simp
    rw [e1, scanLoop_step_at pre c (r ++ post) true false d si]
    have e2 : scanStep ⟨pre ++ c :: (r ++ post), true, false, d, si, pre.length⟩ c =
        (⟨pre ++ c :: (r ++ post), true, false, d, si, pre.length + 1⟩, none) := by
      simp [scanStep, hc1, hc2]
    rw [e2]
    have hmid := ih (pre ++ [c]) post d si
    simp only [List.append_assoc, List.singleton_append, List.cons_append,
      List.nil_append, List.length_append, List.length_cons, List.length_nil] at hmid ⊢
    rw [show pre.length + (r.length + 1) = pre.length + 1 + r.length by omega]
    rw [hmid]
    simp
  | @esc c r hrest ih =>
    intro pre post d si
    have e1 : pre ++ ('\\' :: c :: r) ++ post = pre ++ '\\' :: (c :: (r ++ post)) := by
      simp
    rw [e1, scanLoop_step_at pre '\\' (c :: (r ++ post)) true false d si]
    have e2 : scanStep ⟨pre ++ '\\' :: (c :: (r ++ post)), true, false, d, si,
        pre.length⟩ '\\' =
        (⟨pre ++ '\\' :: (c :: (r ++ post)), true, true, d, si, pre.length + 1⟩, none) := by
      simp [scanStep]
    rw [e2]
    have e3 : pre ++ '\\' :: (c :: (r ++ post)) = (pre ++ ['\\']) ++ c :: (r ++ post) := by
      simp
    have e4 : pre.length + 1 = (pre ++ ['\\']).length := by simp
    rw [e3, e4, scanLoop_step_at (pre ++ ['\\']) c (r ++ post) true true d si]
    have e5 : scanStep ⟨(pre ++ ['\\']) ++ c :: (r ++ post), true, true, d, si,
        (pre ++ ['\\']).length⟩ c =
        (⟨(pre ++ ['\\']) ++ c :: (r ++ post), true, false, d, si,
          (pre ++ ['\\']).length + 1⟩, none) := by
      by_cases hc : c = '\\'
      · simp [scanStep, hc]
      · by_cases hq : c = '"' <;> simp [scanStep, hc, hq]
    rw [e5]
    have hmid := ih (pre ++ ['\\', c]) post d si
    simp only [List.append_assoc, List.singleton_append, List.cons_append,
      List.nil_append, List.length_append, List.length_cons, List.length_nil] at hmid ⊢
    rw [show pre.length + (r.length + 1 + 1) = pre.length + 1 + 1 + r.length by omega]
    rw [show pre.length + 1 + 1 + r.length = pre.length + (1 + 1) + r.length by omega] at hmid ⊢
    rw [hmid]
    simp

/-- Scanning a balanced interior at depth at least 1 advances the cursor over
it: no emission, no net state change. -/
theorem balanced_scan {i : List Char} (hB : Balanced i) :
    ∀ (pre post : List Char) (d si : Int), 1 ≤ d →
    scanLoop ⟨pre ++ i ++ post, false, false, d, si, pre.length⟩ =
      scanLoop ⟨pre ++ i ++ post, false, false, d, si, pre.length + i.length⟩ := by
  induction hB with
  | nil =>
    intro pre post d si hd
    simp
  | @plain c r hc1 hc2 hc3 hrest ih =>
    intro pre post d si hd
    have e1 : pre ++ (c :: r) ++ post = pre ++ c :: (r ++ post) := by simp
    rw [e1, scanLoop_step_at pre c (r ++ post) false false d si]
    have e2 : scanStep ⟨pre ++ c :: (r ++ post), false, false, d, si, pre.length⟩ c =
        (⟨pre ++ c :: (r ++ post), false, false, d, si, pre.length + 1⟩, none) := by
      simp [scanStep, hc1, hc2, hc3]
    rw [e2]
    have hmid := ih (pre ++ [c]) post d si hd
    simp only [List.append_assoc, List.singleton_append, List.cons_append,
      List.nil_append, List.length_append, List.length_cons, List.length_nil] at hmid ⊢
    rw [show pre.length + (r.length + 1) = pre.length + 1 + r.length by omega]
    rw [hmid]
    simp
  | @str b r hb hrest ih =>
    intro pre post d si hd
    have e1 : pre ++ ('"' :: b ++ '"' :: r) ++ post =
        pre ++ '"' :: (b ++ ('"' :: (r ++ post))) := by simp
    rw [e1, scanLoop_step_at pre '"' (b ++ ('"' :: (r ++ post))) false false d si]
    have e2 : scanStep ⟨pre ++ '"' :: (b ++ ('"' :: (r ++ post))), false, false, d, si,
        pre.length⟩ '"' =
        (⟨pre ++ '"' :: (b ++ ('"' :: (r ++ post))), true, false, d, si,
          pre.length + 1⟩, none) := by
      simp [scanStep]
    rw [e2]
    have e3 : pre ++ '"' :: (b ++ ('"' :: (r ++ post))) =
        (pre ++ ['"']) ++ b ++ ('"' :: (r ++ post)) := by simp
    have e4 : pre.length + 1 = (pre ++ ['"']).length := by simp
    rw [e3, e4, strBody_scan hb (pre ++ ['"']) ('"' :: (r ++ post)) d si]
    have e5 : (pre ++ ['"']) ++ b ++ ('"' :: (r ++ post)) =
        ((pre ++ ['"']) ++ b) ++ '"' :: (r ++ post) := by simp
    have e6 : (pre ++ ['"']).length + b.length = ((pre ++ ['"']) ++ b).length := by
      simp only [List.length_append, List.length_cons, List.length_nil]
      try omega
    rw [e5, e6, scanLoop_step_at ((pre ++ ['"']) ++ b) '"' (r ++ post) true false d si]
    have e7 : scanStep ⟨((pre ++ ['"']) ++ b) ++ '"' :: (r ++ post), true, false, d, si,
        ((pre ++ ['"']) ++ b).length⟩ '"' =
        (⟨((pre ++ ['"']) ++ b) ++ '"' :: (r ++ post), false, false, d, si,
          ((pre ++ ['"']) ++ b).length + 1⟩, none) := by
      simp [scanStep]
    rw [e7]
    have hmid := ih (pre ++ '"' :: b ++ ['"']) post d si hd
    simp only [List.append_assoc, List.singleton_append, List.cons_append,
      List.nil_append, List.length_append, List.length_cons, List.length_nil,
      Nat.zero_add] at hmid ⊢
    rw [show pre.length + (b.length + 1) + 1 = pre.length + (b.length + 1 + 1) by omega]
    rw [show pre.length + (b.length + (r.length + 1) + 1) =
      pre.length + (b.length + 1 + 1) + r.length by omega]
    rw [hmid]
    simp
  | @obj i0 r hi hrest ih1 ih2 =>
    intro pre post d si hd
    have e1 : pre ++ ('{' :: i0 ++ '}' :: r) ++ post =
        pre ++ '{' :: (i0 ++ ('}' :: (r ++ post))) := by simp
    rw [e1, scanLoop_step_at pre '{' (i0 ++ ('}' :: (r ++ post))) false false d si]
    have hd0 : ¬ (d = 0) := by omega
    have e2 : scanStep ⟨pre ++ '{' :: (i0 ++ ('}' :: (r ++ post))), false, false, d, si,
        pre.length⟩ '{' =
        (⟨pre ++ '{' :: (i0 ++ ('}' :: (r ++ post))), false, false, d + 1, si,
          pre.length + 1⟩, none) := by
      simp [scanStep, hd0]
    rw [e2]
    have e3 : pre ++ '{' :: (i0 ++ ('}' :: (r ++ post))) =
        (pre ++ ['{']) ++ i0 ++ ('}' :: (r ++ post)) := by simp
    have e4 : pre.length + 1 = (pre ++ ['{']).length := by simp
    rw [e3, e4, ih1 (pre ++ ['{']) ('}' :: (r ++ post)) (d + 1) si (by omega)]
    have e5 : (pre ++ ['{']) ++ i0 ++ ('}' :: (r ++ post)) =
        ((pre ++ ['{']) ++ i0) ++ '}' :: (r ++ post) := by simp
    have e6 : (pre ++ ['{']).length + i0.length = ((pre ++ ['{']) ++ i0).length := by
      simp only [List.length_append, List.length_cons, List.length_nil]
      try omega
    rw [e5, e6,
      scanLoop_step_at ((pre ++ ['{']) ++ i0) '}' (r ++ post) false false (d + 1) si]
    have hdno : ¬ (d + 1 - 1 = 0 ∧ si ≠ -1) := by
      rintro ⟨h1, -⟩
      omega
    have e7 : scanStep ⟨((pre ++ ['{']) ++ i0) ++ '}' :: (r ++ post), false, false,
        d + 1, si, ((pre ++ ['{']) ++ i0).length⟩ '}' =
        (⟨((pre ++ ['{']) ++ i0) ++ '}' :: (r ++ post), false, false, d, si,
          ((pre ++ ['{']) ++ i0).length + 1⟩, none) := by
      simp [scanStep, hdno]
      intro h
      exact absurd h hd0
    rw [e7]
    have hmid := ih2 (pre ++ '{' :: i0 ++ ['}']) post d si hd
    simp only [List.append_assoc, List.singleton_append, List.cons_append,
      List.nil_append, List.length_append, List.length_cons, List.length_nil,
      Nat.zero_add] at hmid ⊢
    rw [show pre.length + (i0.length + 1) + 1 = pre.length + (i0.length + 1 + 1) by omega]
    rw [show pre.length + (i0.length + (r.length + 1) + 1) =
      pre.length + (i0.length + 1 + 1) + r.length by omega]
    rw [hmid]
    simp

/-- Scanning a well-formed object text from a fresh state emits exactly that
text and returns to the fresh state with the remaining input. -/
theorem objText_scan {o : List Char} (ho : ObjText o) (rest : List Char) :
    scanLoop ⟨o ++ rest, false, false, 0, -1, 0⟩ =
      ((scanLoop ⟨rest, false, false, 0, -1, 0⟩).1,
        o :: (scanLoop ⟨rest, false, false, 0, -1, 0⟩).2) := by
  obtain ⟨i, hi, rfl⟩ := ho
  rw [show (⟨('{' :: i ++ ['}']) ++ rest, false, false, 0, -1, 0⟩ : DecState) =
    ⟨([] : List Char) ++ '{' :: (i ++ '}' :: rest), false, false, 0, -1,
      ([] : List Char).length⟩ from by simp]
  rw [scanLoop_step_at [] '{' (i ++ '}' :: rest) false false 0 (-1)]
  have e2 : scanStep ⟨([] : List Char) ++ '{' :: (i ++ '}' :: rest), false, false, 0,
      -1, ([] : List Char).length⟩ '{' =
      (⟨([] : List Char) ++ '{' :: (i ++ '}' :: rest), false, false, 1, 0, 1⟩, none) := by
    simp [scanStep]
  rw [e2]
  have e3 : ([] : List Char) ++ '{' :: (i ++ '}' :: rest) = ['{'] ++ i ++ ('}' :: rest) := by
    simp
  have e4 : (1 : Nat) = (['{'] : List Char).length := rfl
  rw [e3, e4, balanced_scan hi ['{'] ('}' :: rest) 1 0 (by omega)]
  have e5 : (['{'] : List Char) ++ i ++ ('}' :: rest) = (['{'] ++ i) ++ '}' :: rest := by
    simp
  have e6 : (['{'] : List Char).length + i.length = (['{'] ++ i).length := by
    simp only [List.length_append, List.length_cons, List.length_nil]
  rw [e5, e6, scanLoop_step_at (['{'] ++ i) '}' rest false false 1 0]
  have htake : ∀ (l : List Char) (c : Char) (r : List Char),
      List.take (l.length + 1) (l ++ c :: r) = l ++ [c] := by
    intro l c r
    rw [List.take_append_eq_append_take]
    simp
  have hdrop : ∀ (l : List Char) (c : Char) (r : List Char),
      List.drop (l.length + 1) (l ++ c :: r) = r := by
    intro l c r
    rw [List.drop_append_eq_append_drop]
    simp
  have e7 : scanStep ⟨(['{'] ++ i) ++ '}' :: rest, false, false, 1, 0,
      (['{'] ++ i).length⟩ '}' =
      (⟨rest, false, false, 0, -1, 0⟩, some ('{' :: i ++ ['}'])) := by
    have ht : ((['{'] ++ i) ++ '}' :: rest).take ((['{'] ++ i).length + 1) =
        '{' :: i ++ ['}'] := by
      rw [htake (['{'] ++ i) '}' rest]
      simp
    have hd : ((['{'] ++ i) ++ '}' :: rest).drop ((['{'] ++ i).length + 1) = rest :=
      hdrop (['{'] ++ i) '}' rest
    simp [scanStep, ht, hd, htake]
  rw [e7]
  simp

/-- Scanning the concatenation of well-formed object texts from the initial
state emits exactly those texts, in order. -/
theorem objs_scan : ∀ (objs : List (List Char)), (∀ o ∈ objs, ObjText o) →
    scanLoop ⟨objs.flatten, false, false, 0, -1, 0⟩ =
      (⟨[], false, false, 0, -1, 0⟩, objs) := by
  intro objs
  induction objs with
  | nil =>
    intro _
    simp only [List.flatten_nil]
    exact scanLoop_quiescent _ rfl
  | cons o rest ih =>
    intro h
    simp only [List.flatten_cons]
    rw [objText_scan (h o (by simp)) rest.flatten]
    rw [ih (fun x hx => h x (by simp [hx]))]

/-- C1: for every sequence of well-formed, back-to-back JSON object texts and
every way of splitting their concatenation into chunks — including splits
inside string literals, inside escape sequences, and exactly at a brace — the
stream decoder emits each object text exactly once, in arrival order; the
output is the object list itself, independent of the split points (and hence
the decoded object sequence `objs.map JSON.parse` is identical regardless of
the split). -/
theorem decoder_chunk_independent (objs chunks : List (List Char))
    (hobjs : ∀ o ∈ objs, ObjText o) (hsplit : chunks.flatten = objs.flatten) :
    (feedMany initState chunks).2 = objs := by
  rw [feedMany_eq_feed_flatten chunks initState rfl, hsplit]
  simp only [feed]
  rw [show ({ initState with buffer := initState.buffer ++ objs.flatten } : DecState) =
    (⟨objs.flatten, false, false, 0, -1, 0⟩ : DecState) from by simp [initState]]
  rw [objs_scan objs hobjs]

/-- Witness for C1: the single object `{"a\"b":1}` (containing an escaped
quote) split in the middle of the escape sequence. -/
theorem decoder_chunk_independent_witness :
    (feedMany initState
      [['{', '"', 'a', '\\'], ['"', 'b', '"', ':', '1', '}']]).2 =
      [['{', '"', 'a', '\\', '"', 'b', '"', ':', '1', '}']] := by
  apply decoder_chunk_independent
  · intro o ho
    simp only [List.mem_singleton] at ho
    subst ho
    exact ⟨['"', 'a', '\\', '"', 'b', '"', ':', '1'],
      Balanced.str
        (StrBody.raw (by decide) (by decide)
          (StrBody.esc (StrBody.raw (by decide) (by decide) StrBody.nil)))
        (Balanced.plain (by decide) (by decide) (by decide)
          (Balanced.plain (by decide) (by decide) (by decide) Balanced.nil)),
      rfl⟩
  · rfl

/-! ### Claim C2: parse failures are contained -/

/-- The interleaved decode/emit loop equals the pure scan loop followed by
per-span emission: error handling never changes which spans are found nor
the decoder state. -/
theorem scanLoopEF_eq (parse : List Char → Option RespObj) (cb : Collab) :
    ∀ (fuel : Nat) (s : DecState) (em : EmitState),
    scanLoopEF parse cb fuel s em =
      ((scanLoopF fuel s).1, emitSpans parse cb em (scanLoopF fuel s).2) := by
  intro fuel
  induction fuel with
  | zero =>
    intro s em
    simp [scanLoopEF, scanLoopF, emitSpans]
  | succ fuel ih =>
    intro s em
    by_cases h : s.cursor < s.buffer.length
    · simp only [scanLoopEF, scanLoopF, dif_pos h]
      rcases e : scanStep s (s.buffer.get ⟨s.cursor, h⟩) with ⟨s1, osp⟩
      cases osp with
      | none =>
        simp only [Option.toList, List.nil_append]
        exact ih s1 em
      | some span =>
        simp only [Option.toList, List.singleton_append]
        cases hp : parse span with
        | some o =>
          simp only [hp, ih s1 (handleObj cb em o).1, emitSpans, hp]
        | none =>
          simp only [hp, ih s1 em, emitSpans, hp]
    · simp [scanLoopEF, scanLoopF, dif_neg h, emitSpans]

/-- Emission distributes over concatenation of span lists. -/
theorem emitSpans_append (parse : List Char → Option RespObj) (cb : Collab) :
    ∀ (a b : List (List Char)) (em : EmitState),
    emitSpans parse cb em (a ++ b) =
      ((emitSpans parse cb (emitSpans parse cb em a).1 b).1,
       (emitSpans parse cb em a).2.1 ++
         (emitSpans parse cb (emitSpans parse cb em a).1 b).2.1,
       (emitSpans parse cb em a).2.2 ++
         (emitSpans parse cb (emitSpans parse cb em a).1 b).2.2) := by
  intro a
  induction a with
  | nil =>
    intro b em
    simp [emitSpans]
  | cons sp rest ih =>
    intro b em
    cases hp : parse sp with
    | some o =>
      simp only [List.cons_append, emitSpans, hp]
      rw [show rest.append b = rest ++ b from rfl, ih]
      simp
    | none =>
      simp only [List.cons_append, emitSpans, hp]
      rw [show rest.append b = rest ++ b from rfl, ih]

/-- Per-span emission is the object pipeline on the parseable spans, and the
reported errors are exactly the spans that fail to parse, in order. -/
theorem emitSpans_char (parse : List Char → Option RespObj) (cb : Collab) :
    ∀ (spans : List (List Char)) (em : EmitState),
    emitSpans parse cb em spans =
      ((processObjs cb em (spans.filterMap parse)).1,
       (processObjs cb em (spans.filterMap parse)).2,
       spans.filter (fun sp => (parse sp).isNone)) := by
  intro spans
  induction spans with
  | nil =>
    intro em
    simp [emitSpans, processObjs]
  | cons sp rest ih =>
    intro em
    cases hp : parse sp with
    | some o =>
      simp only [emitSpans, hp, List.filterMap_cons, List.filter_cons, hp,
        Option.isNone_some, processObjs, ih]
      simp
    | none =>
      simp only [emitSpans, hp, List.filterMap_cons, List.filter_cons, hp,
        Option.isNone_none, processObjs, ih]
      simp

/-- The full interleaved session equals the pure decoder followed by per-span
emission. -/
theorem feedManyE_eq (parse : List Char → Option RespObj) (cb : Collab) :
    ∀ (chunks : List (List Char)) (s : DecState) (em : EmitState),
    feedManyE parse cb s em chunks =
      ((feedMany s chunks).1,
       emitSpans parse cb em (feedMany s chunks).2) := by
  intro chunks
  induction chunks with
  | nil =>
    intro s em
    simp [feedManyE, feedMany, emitSpans]
  | cons c rest ih =>
    intro s em
    simp only [feedManyE, feedMany]
    have hf : feedE parse cb s em c = ((feed s c).1, emitSpans parse cb em (feed s c).2) := by
      simp only [feedE, feed, scanLoop, scanLoopEF_eq]
    rw [hf, ih]
    rw [emitSpans_append parse cb (feed s c).2 (feedMany (feed s c).1 rest).2 em]

/-- C2: parse failures are contained per object.  For every session, the
interleaved loop leaves the decoder in exactly the state of the pure scanner
(a failed span is discarded by the same compaction as a successful one, and
scanning continues), the emitted events are exactly the object pipeline run
on the spans that parse (so objects after a malformed span are still decoded
and emitted), and the reported errors are exactly the spans that fail to
parse, in order — nothing is thrown, so a malformed object never aborts the
session. -/
theorem decode_errors_contained (parse : List Char → Option RespObj)
    (cb : Collab) (chunks : List (List Char)) :
    (feedManyE parse cb initState ⟨false, 0⟩ chunks).1 =
      (feedMany initState chunks).1 ∧
    decodeSession parse cb chunks =
      ((processObjs cb ⟨false, 0⟩
          ((feedMany initState chunks).2.filterMap parse)).2,
       (feedMany initState chunks).2.filter (fun sp => (parse sp).isNone)) := by
  constructor
  · rw [feedManyE_eq]
  · simp only [decodeSession, feedManyE_eq, emitSpans_char]

/-! ### Claim C5: tool-result correlation through the id-to-name map -/

/-- C5: in a conversation whose id-to-name map (built by scanning all
`tool_use` blocks in conversation order before translation) resolves `id` to
`name`, every non-reasoning, non-assistant message whose blocks contain a
`ToolResult` for `id` is translated to a message that appears in the request
body with role `"function"` and contains a `FunctionResponse` part carrying
the resolved `name` and a response object `{content: <result content>}`; and
no `FunctionResponse` part of that message carries a `"name"` key inside its
response object. -/
theorem tool_result_correlation
    (msgs : List CanonicalMessage) (m : CanonicalMessage)
    (bs : List ContentBlock) (id name content : String)
    (hm : m ∈ msgs) (hnr : m.mtype ≠ some "reasoning")
    (hrole : m.role ≠ "assistant") (hbs : m.content = .blocks bs)
    (hblk : ContentBlock.toolResult id content ∈ bs)
    (hname : lookupStr id (buildToolIdMap msgs) = some name) :
    convertMessage (buildToolIdMap msgs) m ∈ translateMessages msgs ∧
    (convertMessage (buildToolIdMap msgs) m).role = "function" ∧
    GPart.functionResponse name [("content", JsonVal.str content)] ∈
      (convertMessage (buildToolIdMap msgs) m).parts ∧
    (∀ (n : String) (resp : List (String × JsonVal)),
      GPart.functionResponse n resp ∈ (convertMessage (buildToolIdMap msgs) m).parts →
      List.lookup "name" resp = none) := by
  have hany : bs.any blockHasToolResult = true :=
    List.any_eq_true.mpr ⟨_, hblk, rfl⟩
  refine ⟨?_, ?_, ?_, ?_⟩
  · simp only [translateMessages, List.mem_map]
    refine ⟨m, ?_, rfl⟩
    rw [List.mem_filter]
    exact ⟨hm, by simp [hnr]⟩
  · simp [convertMessage, hbs, hrole, hany]
  · simp only [convertMessage, hbs, hrole, hany]
    simp only [if_neg hrole, if_pos hany, List.mem_map]
    exact ⟨ContentBlock.toolResult id content, hblk,
      by simp [convertBlock, hname]⟩
  · intro n resp hmem
    simp only [convertMessage, hbs, List.mem_map] at hmem
    obtain ⟨b, _, hb⟩ := hmem
    cases b with
    | text t => simp [convertBlock] at hb
    | toolUse i nm inp => simp [convertBlock] at hb
    | toolResult i c =>
      simp only [convertBlock] at hb
      obtain ⟨-, hresp⟩ := GPart.functionResponse.inj hb
      rw [← hresp]
      rfl

/-- Witness for C5: the spec example `ToolUse{id:"call_1", name:"read_file"}`
followed by `ToolResult{toolUseId:"call_1", content:"X"}`. -/
theorem tool_result_correlation_witness :
    (⟨"user", none,
        .blocks [ContentBlock.toolResult "call_1" "X"]⟩ : CanonicalMessage) ∈
      ([⟨"assistant", none,
          .blocks [ContentBlock.toolUse "call_1" "read_file" JsonVal.null]⟩,
        ⟨"user", none,
          .blocks [ContentBlock.toolResult "call_1" "X"]⟩] :
        List CanonicalMessage) ∧
    lookupStr "call_1" (buildToolIdMap
      [⟨"assistant", none,
          .blocks [ContentBlock.toolUse "call_1" "read_file" JsonVal.null]⟩,
        ⟨"user", none,
          .blocks [ContentBlock.toolResult "call_1" "X"]⟩]) = some "read_file" ∧
    (convertMessage (buildToolIdMap
        [⟨"assistant", none,
            .blocks [ContentBlock.toolUse "call_1" "read_file" JsonVal.null]⟩,
          ⟨"user", none,
            .blocks [ContentBlock.toolResult "call_1" "X"]⟩])
        ⟨"user", none, .blocks [ContentBlock.toolResult "call_1" "X"]⟩).role =
      "function" ∧
    GPart.functionResponse "read_file" [("content", JsonVal.str "X")] ∈
      (convertMessage (buildToolIdMap
        [⟨"assistant", none,
            .blocks [ContentBlock.toolUse "call_1" "read_file" JsonVal.null]⟩,
          ⟨"user", none,
            .blocks [ContentBlock.toolResult "call_1" "X"]⟩])
        ⟨"user", none, .blocks [ContentBlock.toolResult "call_1" "X"]⟩).parts := by
  have h := tool_result_correlation
    [⟨"assistant", none,
        .blocks [ContentBlock.toolUse "call_1" "read_file" JsonVal.null]⟩,
      ⟨"user", none, .blocks [ContentBlock.toolResult "call_1" "X"]⟩]
    ⟨"user", none, .blocks [ContentBlock.toolResult "call_1" "X"]⟩
    [ContentBlock.toolResult "call_1" "X"] "call_1" "read_file" "X"
    (by simp) (by simp) (by simp) rfl (by simp) rfl
  exact ⟨by simp, rfl, h.2.1, h.2.2.1⟩

end VertexExpress
